import Mathlib

/-!
Verification of the commit-graph construction core of `gtfs-git-graph`
(`src/main.rs`), as a shallow embedding in Lean 4.

Modelling conventions, applied uniformly:

* Rust `HashMap` values are embedded as association lists
  (`List (key × value)`).  A `HashMap`'s iteration order is unspecified and
  varies between runs; here it is the list order, and the order of the
  *input* map is exposed as the order of the input list, so quantifying
  over input lists quantifies over iteration orders of the route map.
  `entry(k).or_insert(vec![]).push(v)` becomes `mpush` (appends `v` to the
  bucket of `k`, creating the bucket at the end of the list when absent);
  `insert` becomes `minsert` (replaces in place, appends when absent).
* `git2::Oid` commit ids are embedded as `Nat` indices into the trace of
  created commits: the external store's `commit` call appends a record
  (message, parents, branch) and returns its index.  Branch references
  (`refs/heads/…`) are an association list from branch name to commit id.
* Rust `panic!` and `.unwrap()` failures are embedded as `Except.error`
  with one constructor per distinct failure site.
* The driver's `loop { … }` is embedded with explicit fuel; the theorems
  below show that `totalStops routes + 1` units of fuel are never
  exhausted, so the fueled function is a faithful model of the loop.
* Rust `usize` guards `idx == max - 2` / `index == max - 1` are written
  additively (`idx + 2 = max`, `index + 1 = max`), which agrees with the
  source whenever `max` is large enough for the subtraction not to
  underflow (always the case in reachable states).
-/

set_option maxRecDepth 20000

abbrev RouteId := String
abbrev StopId := String

/-- Embeds `struct GitStop { id, name }` from the source. -/
structure GitStop where
  id : StopId
  name : String
deriving DecidableEq, Repr

/-- Embeds `struct GitRoute { id, name, stops }` from the source. -/
structure GitRoute where
  id : RouteId
  name : String
  stops : List GitStop
deriving DecidableEq, Repr

/-- Embeds `enum RouteBuildState { Untouched(usize), Built(Oid), Pending(usize, usize, Oid) }`. -/
inductive RouteBuildState where
  | Untouched : Nat → RouteBuildState
  | Built : Nat → RouteBuildState
  | Pending : Nat → Nat → Nat → RouteBuildState
deriving DecidableEq, Repr

/-- One record of the external store's commit trace: the arguments of one
`commit(repo, message, parents, branch)` call, in creation order. -/
structure CommitRec where
  message : String
  parents : List Nat
  branch : String
deriving DecidableEq, Repr

/-- The external git repository, reduced to what the core reads and writes:
the ordered trace of created commits and the branch heads. -/
structure Repo where
  commits : List CommitRec
  branches : List (String × Nat)
deriving DecidableEq, Repr

/-- One constructor per `panic!`/`unwrap` failure site of the source, plus
`outOfFuel` for the fuel-based embedding of the driver loop. -/
inductive BuildError where
  | alreadyBuiltCommit
  | alreadyBuiltStop
  | excessiveIndex
  | stopAlreadyBuilt
  | lineAlreadyBuilt
  | routeStopLookup
  | fdRouteLookup
  | fdStopLookup
  | conflictsLookup
  | stopNameLookup
  | hostLookup
  | driverRouteLookup
  | stateLookup
  | participantBuilt
  | deadlock
  | outOfFuel
deriving DecidableEq, Repr

/-- Association-list lookup (model of `HashMap::get`). -/
def mlookup {α β : Type} [DecidableEq α] : List (α × β) → α → Option β
  | [], _ => none
  | (k, v) :: rest, key => if k = key then some v else mlookup rest key

/-- Association-list insert-or-replace (model of `HashMap::insert`); an
existing key keeps its position, a new key is appended. -/
def minsert {α β : Type} [DecidableEq α] : List (α × β) → α → β → List (α × β)
  | [], k, v => [(k, v)]
  | (k', v') :: rest, k, v =>
    if k' = k then (k, v) :: rest else (k', v') :: minsert rest k v

/-- Model of `map.entry(k).or_insert(vec![]).push(v)`. -/
def mpush {α β : Type} [DecidableEq α] : List (α × List β) → α → β → List (α × List β)
  | [], k, v => [(k, [v])]
  | (k', vs) :: rest, k, v =>
    if k' = k then (k', vs ++ [v]) :: rest else (k', vs) :: mpush rest k v

/-- Key list of an association list (model of `HashMap::keys`). -/
def mkeys {α β : Type} (m : List (α × β)) : List α := m.map (fun e => e.1)

abbrev States := List (RouteId × RouteBuildState)

/-- Embeds the accumulation loop of `get_conflicts`: for every route (in map
iteration order) and every stop of the route, push the route id onto the
stop's bucket. -/
def collect_stops (routes : List (RouteId × GitRoute)) : List (StopId × List RouteId) :=
  routes.foldl
    (fun acc kr => kr.2.stops.foldl (fun acc2 stop => mpush acc2 stop.id kr.2.id) acc) []

/-- Embeds `get_conflicts` (source lines 90–99): keep only buckets with more
than one pushed route id.  Note the filter counts *occurrences*: a route id
is pushed once per visit of the stop. -/
def get_conflicts (routes : List (RouteId × GitRoute)) : List (StopId × List RouteId) :=
  (collect_stops routes).filter (fun e => decide (1 < e.2.length))

/-- Embeds `RouteBuildState::commit` (the current head commit, if any). -/
def RouteBuildState.commit? : RouteBuildState → Option Nat
  | .Built c => some c
  | .Pending _ _ c => some c
  | .Untouched _ => none

/-- Embeds `RouteBuildState::did_commit` (source lines 157–164).  The Rust
guard `idx == max - 2` is written `idx + 2 = max` (see the header note). -/
def RouteBuildState.did_commit : RouteBuildState → Nat → Except BuildError RouteBuildState
  | .Built _, _ => .error .alreadyBuiltCommit
  | .Pending idx max _, c =>
    if idx + 2 = max then .ok (.Built c) else .ok (.Pending (idx + 1) max c)
  | .Untouched max, c => .ok (.Pending 0 max c)

/-- Embeds `RouteBuildState::did_stop` (source lines 166–176), preserving the
order of the guarded match arms.  The Rust guard `index == max - 1` is
written `index + 1 = max` (see the header note). -/
def RouteBuildState.did_stop : RouteBuildState → Nat → Nat → Except BuildError RouteBuildState
  | .Built _, _, _ => .error .alreadyBuiltStop
  | .Untouched max, index, c =>
    if 0 < index then .error .excessiveIndex else .ok (.Pending index max c)
  | .Pending idx max _, index, c =>
    if idx + 1 ≠ index then .error .stopAlreadyBuilt
    else if max ≤ idx then .error .lineAlreadyBuilt
    else if index + 1 = max then .ok (.Built c)
    else .ok (.Pending index max c)

/-- Embeds the store's `commit` call: append a commit record, move the branch
head to it, return its id (= its index in the trace). -/
def mkCommit (repo : Repo) (message : String) (parents : List Nat) (branch : String) :
    Repo × Nat :=
  (⟨repo.commits ++ [⟨message, parents, branch⟩],
    minsert repo.branches branch repo.commits.length⟩,
   repo.commits.length)

/-- Embeds `add_commit_to_head`: force-move a branch reference. -/
def add_commit_to_head (repo : Repo) (branch : String) (commit : Nat) : Repo :=
  ⟨repo.commits, minsert repo.branches branch commit⟩

/-- Embeds the `for stop_idx in from_stop_idx..route.stops().len()` loop of
`build_route_alone`; the first `Nat` argument is the number of remaining
iterations (`len - stop_idx`), so recursion is structural. -/
def buildStopsFrom (route : GitRoute) (conflicts : List StopId) :
    Nat → Nat → RouteBuildState → Repo → Except BuildError (Repo × RouteBuildState)
  | 0, _, state, repo => .ok (repo, state)
  | rem + 1, stopIdx, state, repo =>
    match route.stops.get? stopIdx with
    | none => .error .routeStopLookup
    | some stop =>
      if stop.id ∈ conflicts then .ok (repo, state)
      else
        let parent : List Nat :=
          match state.commit? with
          | some c => [c]
          | none => []
        let pr := mkCommit repo stop.name parent route.name
        match state.did_stop stopIdx pr.2 with
        | .error e => .error e
        | .ok st2 => buildStopsFrom route conflicts rem (stopIdx + 1) st2 pr.1

/-- Embeds `build_route_alone` (source lines 101–137). -/
def build_route_alone (route : GitRoute) (previous : RouteBuildState)
    (conflicts : List StopId) (repo : Repo) : Except BuildError (Repo × RouteBuildState) :=
  match previous with
  | .Built c => .ok (repo, .Built c)
  | .Pending idx len c =>
    if route.stops.length ≤ idx + 1 then .ok (repo, .Built c)
    else
      buildStopsFrom route conflicts (route.stops.length - (idx + 1)) (idx + 1)
        (.Pending idx len c) repo
  | .Untouched len => buildStopsFrom route conflicts route.stops.length 0 (.Untouched len) repo

/-- Embeds `initialize_states` (source lines 179–181). -/
def init_states (routes : List (RouteId × GitRoute)) : States :=
  routes.map (fun kr => (kr.1, RouteBuildState.Untouched kr.2.stops.length))

/-- Embeds the body of `find_dependencies` (source lines 183–198), iterating
the state map in its list order and threading the dependency buckets. -/
def findDepsAux (routes : List (RouteId × GitRoute)) :
    List (RouteId × RouteBuildState) → List (StopId × List RouteId) →
    Except BuildError (List (StopId × List RouteId))
  | [], acc => .ok acc
  | (rid, .Pending idx _ _) :: rest, acc =>
    match mlookup routes rid with
    | none => .error .fdRouteLookup
    | some route =>
      match route.stops.get? (idx + 1) with
      | none => .error .fdStopLookup
      | some stop => findDepsAux routes rest (mpush acc stop.id rid)
  | (rid, .Untouched _) :: rest, acc =>
    match mlookup routes rid with
    | none => .error .fdRouteLookup
    | some route =>
      match route.stops.get? 0 with
      | none => .error .fdStopLookup
      | some stop => findDepsAux routes rest (mpush acc stop.id rid)
  | (_, .Built _) :: rest, acc => findDepsAux routes rest acc

/-- Embeds `find_dependencies`. -/
def find_dependencies (routes : List (RouteId × GitRoute)) (states : States) :
    Except BuildError (List (StopId × List RouteId)) :=
  findDepsAux routes states []

/-- Embeds the `routes_state` collection of the driver (source lines
250–256): filter the state map to the group's routes, panicking on a
`Built` participant. -/
def collectGroupStates (depRoutes : List RouteId) :
    States → Except BuildError States
  | [] => .ok []
  | (rid, st) :: rest =>
    if rid ∈ depRoutes then
      match st with
      | .Built _ => .error .participantBuilt
      | _ =>
        match collectGroupStates depRoutes rest with
        | .error e => .error e
        | .ok gs => .ok ((rid, st) :: gs)
    else collectGroupStates depRoutes rest

/-- Embeds the parent computation of the driver (source lines 258–262):
the heads of the collected participant states, `Untouched` contributing
nothing, with no deduplication. -/
def mergeParents (gs : States) : List Nat :=
  gs.filterMap (fun e => e.2.commit?)

/-- Embeds the state-update loop after a merge commit (source lines
275–278). -/
def updateStatesAfterMerge (c : Nat) : States → States → Except BuildError States
  | [], states => .ok states
  | (rid, st) :: rest, states =>
    match st.did_commit c with
    | .error e => .error e
    | .ok st2 => updateStatesAfterMerge c rest (minsert states rid st2)

/-- Embeds the head-moving loop over `other_routes` (source lines 265–268). -/
def moveOtherHeads (routes : List (RouteId × GitRoute)) (c : Nat) :
    List RouteId → Repo → Except BuildError Repo
  | [], repo => .ok repo
  | rid :: rest, repo =>
    match mlookup routes rid with
    | none => .error .driverRouteLookup
    | some route => moveOtherHeads routes c rest (add_commit_to_head repo route.name c)

/-- Embeds the rebuild loop after a merge (source lines 282–288); note the
source looks the state up and stores it back under `route.id` (the value's
id), not the map key. -/
def rebuildGroup (routes : List (RouteId × GitRoute)) (conflicts : List StopId) :
    List RouteId → States → Repo → Except BuildError (States × Repo)
  | [], states, repo => .ok (states, repo)
  | rid :: rest, states, repo =>
    match mlookup routes rid with
    | none => .error .driverRouteLookup
    | some route =>
      match mlookup states route.id with
      | none => .error .stateLookup
      | some st =>
        match build_route_alone route st conflicts repo with
        | .error e => .error e
        | .ok (repo2, st2) =>
          rebuildGroup routes conflicts rest (minsert states route.id st2) repo2

/-- Embeds the body of the driver's `for (dep_stop_id, dep_routes)` loop
(source lines 230–288) for one dependency group.  The returned `Bool` says
whether this group set `built_something`. -/
def processGroup (routes : List (RouteId × GitRoute))
    (conflicts : List (StopId × List RouteId))
    (depStopId : StopId) (depRoutes : List RouteId)
    (states : States) (repo : Repo) :
    Except BuildError (States × Repo × Bool) :=
  match mlookup conflicts depStopId with
  | none => .error .conflictsLookup
  | some target =>
    if target.length ≠ depRoutes.length then .ok (states, repo, false)
    else
      match target.head? with
      | none => .error .stopNameLookup
      | some rid0 =>
        match mlookup routes rid0 with
        | none => .error .stopNameLookup
        | some route0 =>
          match route0.stops.find? (fun st => decide (st.id = depStopId)) with
          | none => .error .stopNameLookup
          | some stop0 =>
            match depRoutes.head? with
            | none => .error .hostLookup
            | some host =>
              match mlookup routes host with
              | none => .error .hostLookup
              | some hostRoute =>
                match collectGroupStates depRoutes states with
                | .error e => .error e
                | .ok gs =>
                  let pr := mkCommit repo (stop0.name ++ " from merge")
                    (mergeParents gs) hostRoute.name
                  match moveOtherHeads routes pr.2 (depRoutes.drop 1) pr.1 with
                  | .error e => .error e
                  | .ok repo2 =>
                    match updateStatesAfterMerge pr.2 gs states with
                    | .error e => .error e
                    | .ok states2 =>
                      match rebuildGroup routes (mkeys conflicts) depRoutes states2 repo2 with
                      | .error e => .error e
                      | .ok (states3, repo3) => .ok (states3, repo3, true)

/-- Embeds one full pass of the driver over the dependency groups, threading
`built_something`. -/
def processPass (routes : List (RouteId × GitRoute))
    (conflicts : List (StopId × List RouteId)) :
    List (StopId × List RouteId) → States → Repo → Bool →
    Except BuildError (States × Repo × Bool)
  | [], states, repo, built => .ok (states, repo, built)
  | (sid, rs) :: rest, states, repo, built =>
    match processGroup routes conflicts sid rs states repo with
    | .error e => .error e
    | .ok (states2, repo2, b) => processPass routes conflicts rest states2 repo2 (built || b)

/-- Embeds the driver's `loop` (source lines 218–294) with explicit fuel:
recompute the frontier, exit when it is empty, process all groups, panic
with the deadlock message when a pass built nothing. -/
def buildLoop (routes : List (RouteId × GitRoute))
    (conflicts : List (StopId × List RouteId)) :
    Nat → States → Repo → Except BuildError (States × Repo)
  | 0, _, _ => .error .outOfFuel
  | fuel + 1, states, repo =>
    match find_dependencies routes states with
    | .error e => .error e
    | .ok deps =>
      if deps.length = 0 then .ok (states, repo)
      else
        match processPass routes conflicts deps states repo false with
        | .error e => .error e
        | .ok (states2, repo2, built) =>
          if built then buildLoop routes conflicts fuel states2 repo2
          else .error .deadlock

/-- Embeds the bootstrap pass of `build_repository` (source lines 209–215):
run every route once through `build_route_alone`, in map iteration order. -/
def bootstrapRoutes (conflicts : List StopId) :
    List (RouteId × GitRoute) → States → Repo → Except BuildError (States × Repo)
  | [], states, repo => .ok (states, repo)
  | (rid, route) :: rest, states, repo =>
    match mlookup states rid with
    | none => .error .stateLookup
    | some st =>
      match build_route_alone route st conflicts repo with
      | .error e => .error e
      | .ok (repo2, st2) => bootstrapRoutes conflicts rest (minsert states rid st2) repo2

/-- Embeds `build_repository` (source lines 200–294): conflict detection,
state initialisation, bootstrap pass, then the fueled driver loop.  There is
no reconciliation step: the routes are consumed exactly as given. -/
def build_repository (routes : List (RouteId × GitRoute)) (fuel : Nat) :
    Except BuildError (States × Repo) :=
  let conflicts := get_conflicts routes
  match bootstrapRoutes (mkeys conflicts) routes (init_states routes) ⟨[], []⟩ with
  | .error e => .error e
  | .ok (states, repo) => buildLoop routes conflicts fuel states repo

/-- Total number of stops over all routes; `totalStops + 1` fuel is shown
below to be enough for the driver loop never to run out. -/
def totalStops (routes : List (RouteId × GitRoute)) : Nat :=
  (routes.map (fun kr => kr.2.stops.length)).sum

/-- The canonical run of the embedded `build_repository`, with enough fuel. -/
def runBuild (routes : List (RouteId × GitRoute)) : Except BuildError (States × Repo) :=
  build_repository routes (totalStops routes + 1)

/-- Commit trace of a run (empty on an aborted run). -/
def commitsOf (r : Except BuildError (States × Repo)) : List CommitRec :=
  match r with
  | .ok p => p.2.commits
  | .error _ => []

/-- Whether a run completed normally. -/
def isOkRun (r : Except BuildError (States × Repo)) : Bool :=
  match r with
  | .ok _ => true
  | .error _ => false

/-- Final state map of a run (empty on an aborted run). -/
def statesOfRun (r : Except BuildError (States × Repo)) : States :=
  match r with
  | .ok p => p.1
  | .error _ => []

/-- Whether a state is terminal. -/
def isBuiltState : RouteBuildState → Bool
  | .Built _ => true
  | _ => false

/-- Whether every route's state is terminal. -/
def allBuilt (states : States) : Bool := states.all (fun e => isBuiltState e.2)

/-- Number of occurrences of stop id `s` over all routes, counting a route
once per visit. -/
def stopOccurrences (routes : List (RouteId × GitRoute)) (s : StopId) : Nat :=
  (routes.map (fun kr => kr.2.stops.countP (fun st => decide (st.id = s)))).sum

/-- Modelled from the spec (§4.1): the `sameOrder` predicate of the Order
Reconciler.  The reconciler itself is absent from the source; this
definition follows the spec's words (filter each route's stop-id sequence to
the ids present in the other, compare the two filtered sequences) and is
used to state what the missing reconciliation would have guaranteed. -/
def sameOrder (a b : GitRoute) : Bool :=
  let aIds : List StopId := a.stops.map (fun s => s.id)
  let bIds : List StopId := b.stops.map (fun s => s.id)
  (bIds.filter (fun i => decide (i ∈ aIds))) == (aIds.filter (fun i => decide (i ∈ bIds)))

/-- Modelled from the spec (§4.1): whole-route reversal, the one repair the
reconciler is allowed to apply. -/
def reverseRoute (r : GitRoute) : GitRoute := ⟨r.id, r.name, r.stops.reverse⟩

/-- Whether two routes share at least one stop id. -/
def sharesStop (a b : GitRoute) : Bool :=
  a.stops.any (fun s => b.stops.any (fun t => decide (t.id = s.id)))

/-- Modelled from the spec (§4.4): the stops the per-route builder must
commit, resuming at `resume` and stopping before the first conflict stop. -/
def specSegment (route : GitRoute) (conflicts : List StopId) (resume : Nat) : List GitStop :=
  (route.stops.drop resume).takeWhile (fun s => decide (s.id ∉ conflicts))

/-- Resume index of the per-route builder for a given entry state. -/
def resumeIndex : RouteBuildState → Nat
  | .Untouched _ => 0
  | .Pending idx _ _ => idx + 1
  | .Built _ => 0

/-- Modelled from the spec (§4.4): the stops the builder commits for a given
entry state (none for a `Built` entry). -/
def specSegmentOf (route : GitRoute) (conflicts : List StopId) :
    RouteBuildState → List GitStop
  | .Built _ => []
  | st => specSegment route conflicts (resumeIndex st)

/-- Modelled from the spec (§4.4): the expected chain of commits for a stop
segment — one commit per stop on the route's branch, the first with the
given parent list, each later one with the previous commit as sole parent;
`base` is the id of the first new commit. -/
def chainCommits (branch : String) : List GitStop → List Nat → Nat → List CommitRec
  | [], _, _ => []
  | stop :: rest, parents, base =>
    ⟨stop.name, parents, branch⟩ :: chainCommits branch rest [base] (base + 1)

/-- Consistency of one route's state with its route and the conflict-key set:
the stored length is the route's length, a `Pending` index has at least one
stop after it, and the next needed stop is a conflict stop.  This is the
per-entry invariant the driver re-establishes at every frontier
computation. -/
def stateOkCore (route : GitRoute) (cks : List StopId) : RouteBuildState → Prop
  | .Built _ => True
  | .Untouched n =>
    n = route.stops.length ∧ ∃ stop, route.stops.get? 0 = some stop ∧ stop.id ∈ cks
  | .Pending idx len _ =>
    len = route.stops.length ∧ idx + 2 ≤ len ∧
      ∃ stop, route.stops.get? (idx + 1) = some stop ∧ stop.id ∈ cks

/-- Well-formedness of the input route map, as guaranteed by `main`: keys
are distinct (it is a `HashMap`), each value's id is its key, and every
route has at least two stops. -/
def WFRoutes (routes : List (RouteId × GitRoute)) : Prop :=
  (mkeys routes).Nodup ∧ ∀ e ∈ routes, e.2.id = e.1 ∧ 2 ≤ e.2.stops.length

/-- The driver's loop invariant: the state map has exactly the routes' keys,
and every entry is consistent (`stateOkCore`). -/
def StatesInv (routes : List (RouteId × GitRoute)) (cks : List StopId)
    (states : States) : Prop :=
  mkeys states = mkeys routes ∧
  ∀ e ∈ states, ∃ route, mlookup routes e.1 = some route ∧ stateOkCore route cks e.2

/-- Number of not-yet-committed stops of one state (the spec's termination
measure, per route). -/
def stateRem : RouteBuildState → Nat
  | .Untouched n => n
  | .Pending idx len _ => len - (idx + 1)
  | .Built _ => 0

/-- The spec's termination measure: total number of uncommitted stops. -/
def statesMeasure (states : States) : Nat := (states.map (fun e => stateRem e.2)).sum

/-- Concrete input: two routes over the same three stops in opposite
directions (the spec's reversed-route scenario). -/
def stopS1 : GitStop := ⟨"s1", "S1"⟩

def stopS2 : GitStop := ⟨"s2", "S2"⟩

def stopS3 : GitStop := ⟨"s3", "S3"⟩

def routeA3 : GitRoute := ⟨"rA", "LineA", [stopS1, stopS2, stopS3]⟩

def routeB3rev : GitRoute := ⟨"rB", "LineB", [stopS3, stopS2, stopS1]⟩

def routeB3fix : GitRoute := ⟨"rB", "LineB", [stopS1, stopS2, stopS3]⟩

def pairRevInput : List (RouteId × GitRoute) := [("rA", routeA3), ("rB", routeB3rev)]

def pairFixedInput : List (RouteId × GitRoute) := [("rA", routeA3), ("rB", routeB3fix)]

def pairFixedSwapped : List (RouteId × GitRoute) := [("rB", routeB3fix), ("rA", routeA3)]

/-- Concrete input: two disjoint two-stop routes, in two iteration orders. -/
def routeP : GitRoute := ⟨"rP", "LineP", [⟨"p1", "P1"⟩, ⟨"p2", "P2"⟩]⟩

def routeQ : GitRoute := ⟨"rQ", "LineQ", [⟨"q1", "Q1"⟩, ⟨"q2", "Q2"⟩]⟩

def disjointPQ : List (RouteId × GitRoute) := [("rP", routeP), ("rQ", routeQ)]

def disjointQP : List (RouteId × GitRoute) := [("rQ", routeQ), ("rP", routeP)]

/-- Concrete input: a single route with a single (unshared) stop. -/
def oneStopInput : List (RouteId × GitRoute) := [("r1", ⟨"r1", "Solo", [⟨"u1", "U1"⟩]⟩)]

/-- Concrete input: a second single-stop route, for the frontier claim. -/
def oneStopInput2 : List (RouteId × GitRoute) := [("r2", ⟨"r2", "Solo2", [⟨"v1", "V1"⟩]⟩)]

/-- Concrete input: one route visiting the same stop twice. -/
def dupStopInput : List (RouteId × GitRoute) :=
  [("r1", ⟨"r1", "Loop", [⟨"s", "S"⟩, ⟨"t", "T"⟩, ⟨"s", "S"⟩]⟩)]

/-- Concrete input: two three-stop routes crossing at one shared stop. -/
def routeAX : GitRoute := ⟨"rA", "LineA", [⟨"a1", "A1"⟩, ⟨"sh", "SH"⟩, ⟨"a2", "A2"⟩]⟩

def routeBX : GitRoute := ⟨"rB", "LineB", [⟨"b1", "B1"⟩, ⟨"sh", "SH"⟩, ⟨"b2", "B2"⟩]⟩

def crossInput : List (RouteId × GitRoute) := [("rA", routeAX), ("rB", routeBX)]

/-- The states of `crossInput` after the bootstrap pass: each route has
committed its first stop and waits at the shared stop. -/
def crossStates : States := [("rA", .Pending 0 3 0), ("rB", .Pending 0 3 1)]

/-- Index of the next stop a state needs (`find_dependencies` semantics):
`0` for `Untouched`, `builtIndex + 1` for `Pending`, none for `Built`. -/
def fdNextIdx : RouteBuildState → Option Nat
  | .Untouched _ => some 0
  | .Pending idx _ _ => some (idx + 1)
  | .Built _ => none

/-- Stop id the given route/state pair is waiting for, as computed by
`find_dependencies` (none when `Built` or when a lookup would fail). -/
def fdNext (routes : List (RouteId × GitRoute)) (rid : RouteId) (st : RouteBuildState) :
    Option StopId :=
  match fdNextIdx st with
  | none => none
  | some i =>
    match mlookup routes rid with
    | none => none
    | some route =>
      match route.stops.get? i with
      | none => none
      | some stop => some stop.id

/-- The route ids of the state map waiting on stop `s`, in state-map order. -/
def waitingKeys (routes : List (RouteId × GitRoute)) (states : States) (s : StopId) :
    List RouteId :=
  (states.filter (fun e => decide (fdNext routes e.1 e.2 = some s))).map (fun e => e.1)

/-- Keys of the routes whose stop sequence visits stop id `s`. -/
def routesThrough (routes : List (RouteId × GitRoute)) (s : StopId) : List RouteId :=
  (routes.filter (fun e => decide (s ∈ e.2.stops.map (fun st => st.id)))).map (fun e => e.1)

/-- Facts `find_dependencies` guarantees about one of its groups: the group
is nonempty, has no repeated route id, and lists exactly routes whose state
is currently waiting on the group's stop. -/
def GroupOk (routes : List (RouteId × GitRoute)) (states : States)
    (s : StopId) (rs : List RouteId) : Prop :=
  rs ≠ [] ∧ rs.Nodup ∧
    ∀ rid ∈ rs, ∃ st, mlookup states rid = some st ∧ isBuiltState st = false ∧
      fdNext routes rid st = some s

/-- A state's stored length field agrees with its route (`Built` carries no
length). -/
def stateLenOk (route : GitRoute) : RouteBuildState → Prop
  | .Untouched n => n = route.stops.length
  | .Pending _ len _ => len = route.stops.length
  | .Built _ => True

/-! ### Concrete evaluation theorems for the claims settled by computation -/

/-- C1 (counterexample).  The claim says every input's stop sequences are
first replaced by as-given/reversed orientations making `sameOrder` hold for
every sharing pair, with an Irreconcilable Ordering abort before building
otherwise.  On the reversed-pair input — for which a valid orientation
choice exists, so the claim promises a reconciled, successful build — the
code performs no reconciliation at all: the pair still violates `sameOrder`,
no ordering error is ever raised, and the run enters the build loop and dies
with the driver's deadlock panic (`Infinite loop detected.`) having built
nothing. -/
theorem no_reconciliation_reversed_pair :
    sharesStop routeA3 routeB3rev = true ∧
    sameOrder routeA3 routeB3rev = false ∧
    runBuild pairRevInput = .error .deadlock ∧
    commitsOf (runBuild pairRevInput) = [] :=
  ⟨rfl, rfl, rfl, rfl⟩

/-- C1 (amended).  No order reconciliation exists in the code: routes are
consumed exactly as given.  Reversing the disagreeing route *by hand* — the
repair the spec's reconciler would have applied, after which `sameOrder`
holds — turns the deadlocked run into a successful build with all routes
`Built`, showing the failure lay in the missing reconciliation step. -/
theorem manual_reversal_builds :
    sameOrder routeA3 (reverseRoute routeB3rev) = true ∧
    isOkRun (runBuild [("rA", routeA3), ("rB", reverseRoute routeB3rev)]) = true ∧
    allBuilt (statesOfRun (runBuild [("rA", routeA3), ("rB", reverseRoute routeB3rev)])) = true ∧
    (commitsOf (runBuild [("rA", routeA3), ("rB", reverseRoute routeB3rev)])).length = 3 :=
  ⟨rfl, rfl, rfl, rfl⟩

/-- C2 (counterexample).  A stop visited twice by a single route — and by no
other route — *is* a conflict key: `get_conflicts` pushes one route-id
occurrence per visit and filters on occurrence count, not on distinct route
identity, contradicting the claim that a stop appearing in only one route is
never a conflict key. -/
theorem duplicate_stop_single_route_conflict :
    mlookup (get_conflicts dupStopInput) "s" = some ["r1", "r1"] ∧
    dupStopInput.length = 1 :=
  ⟨rfl, rfl⟩

/-- C3 (code bug).  `did_stop` on `Untouched(1)` with index 0 — the route's
last index — returns `Pending(0, 1, c)` instead of the `Built(c)` the spec
requires: the `Untouched` match arm never yields `Built`.  The resulting
state later makes `find_dependencies` look up stop index 1 of a one-stop
route and panic on the `unwrap`. -/
theorem did_stop_untouched_single_not_built :
    RouteBuildState.did_stop (.Untouched 1) 0 7 = .ok (.Pending 0 1 7) ∧
    RouteBuildState.Pending 0 1 7 ≠ RouteBuildState.Built 7 :=
  ⟨rfl, by decide⟩

/-- C4 (counterexample).  The parent list passed to the store is not
deduplicated: after two routes over the same stops merge at `s1`, both their
heads are the same merge commit, and the next merge commit is created with
parent list `[0, 0]` (and the one after with `[1, 1]`) — the same commit id
twice.  The `dedup` call only exists in the commented-out dead code of the
source. -/
theorem merge_parents_duplicated :
    (commitsOf (runBuild pairFixedInput)).map (fun c => c.parents) = [[], [0, 0], [1, 1]] :=
  rfl

/-- C5 (counterexample).  Two runs over the *same* route map (the two input
lists are permutations of each other, modelling two iteration orders of the
`HashMap`, which is randomly seeded per run) produce different commit
traces, refuting reproducibility across runs. -/
theorem trace_depends_on_iteration_order :
    List.Perm disjointPQ disjointQP ∧
    commitsOf (runBuild disjointPQ) ≠ commitsOf (runBuild disjointQP) := by
  refine ⟨by decide, by decide⟩

/-- C5 (amended).  The build is deterministic only relative to a fixed map
iteration order, and the host route of a merge group is the *first* route in
the dependency group's collection order (`dep_routes.first()`), not the
lexicographically smallest id: iterating the same route map in the two
orders puts every merge commit on `LineA`'s branch in one run and on
`LineB`'s in the other. -/
theorem host_is_first_in_order :
    List.Perm pairFixedInput pairFixedSwapped ∧
    (commitsOf (runBuild pairFixedInput)).map (fun c => c.branch) =
      ["LineA", "LineA", "LineA"] ∧
    (commitsOf (runBuild pairFixedSwapped)).map (fun c => c.branch) =
      ["LineB", "LineB", "LineB"] := by
  refine ⟨by decide, rfl, rfl⟩

/-- C6 (counterexample).  The claimed for-every-input dichotomy (normal exit
with all routes `Built`, or the deadlock error) fails: a single route with a
single unshared stop — a legal input per the spec's ≥ 1 stop precondition —
drives the loop's very first frontier computation into the out-of-range
`unwrap` panic in `find_dependencies`, which is neither outcome. -/
theorem single_stop_route_breaks_dichotomy :
    oneStopInput.all (fun e => decide (1 ≤ e.2.stops.length)) = true ∧
    runBuild oneStopInput = .error .fdStopLookup ∧
    BuildError.fdStopLookup ≠ BuildError.deadlock ∧
    isOkRun (runBuild oneStopInput) = false :=
  ⟨rfl, rfl, by decide, rfl⟩

/-- C10 (counterexample).  The claim promises the `unwrap`s in
`find_dependencies` and the driver's conflict lookup never fail whenever
every route has at least one stop; a single one-stop route with an unshared
stop satisfies that premise, reaches state `Pending(0, 1, c)` after
bootstrap, and the first frontier computation fails in exactly the
`stops.get(idx + 1).unwrap()` of `find_dependencies`. -/
theorem frontier_unwrap_fails_single_stop :
    oneStopInput2.all (fun e => decide (1 ≤ e.2.stops.length)) = true ∧
    runBuild oneStopInput2 = .error .fdStopLookup :=
  ⟨rfl, rfl⟩

/-! ### Association-list lemmas -/

theorem mkeys_nil {α β : Type} : mkeys ([] : List (α × β)) = [] := rfl

theorem mkeys_cons {α β : Type} (e : α × β) (m : List (α × β)) :
    mkeys (e :: m) = e.1 :: mkeys m := rfl

theorem mem_mkeys {α β : Type} {m : List (α × β)} {k : α} :
    k ∈ mkeys m ↔ ∃ v, (k, v) ∈ m := by
  constructor
  · intro h
    obtain ⟨⟨a, b⟩, he, hek⟩ := List.mem_map.mp h
    subst hek
    exact ⟨b, he⟩
  · rintro ⟨v, hv⟩
    exact List.mem_map.mpr ⟨(k, v), hv, rfl⟩

theorem mlookup_eq_none {α β : Type} [DecidableEq α] (m : List (α × β)) (k : α) :
    mlookup m k = none ↔ k ∉ mkeys m := by
  induction m with
  | nil => simp [mlookup, mkeys]
  | cons e rest ih =>
    obtain ⟨k0, v0⟩ := e
    by_cases h : k0 = k
    · subst h
      simp [mlookup, mkeys_cons]
    · simp [mlookup, mkeys_cons, h, Ne.symm h, ih]

theorem mem_of_mlookup {α β : Type} [DecidableEq α] {m : List (α × β)} {k : α} {v : β}
    (h : mlookup m k = some v) : (k, v) ∈ m := by
  induction m with
  | nil => simp [mlookup] at h
  | cons e rest ih =>
    obtain ⟨k0, v0⟩ := e
    by_cases h0 : k0 = k
    · subst h0
      simp [mlookup] at h
      simp [h]
    · simp [mlookup, h0] at h
      simp [ih h]

theorem mlookup_of_mem_nodup {α β : Type} [DecidableEq α] {m : List (α × β)} {k : α} {v : β}
    (hnd : (mkeys m).Nodup) (h : (k, v) ∈ m) : mlookup m k = some v := by
  induction m with
  | nil => simp at h
  | cons e rest ih =>
    obtain ⟨k0, v0⟩ := e
    rw [mkeys_cons, List.nodup_cons] at hnd
    rcases List.mem_cons.mp h with h1 | h1
    · obtain ⟨h2, h3⟩ := Prod.ext_iff.mp h1
      subst h2
      subst h3
      simp [mlookup]
    · have hk : ¬k0 = k := by
        intro hkk
        subst hkk
        exact hnd.1 (mem_mkeys.mpr ⟨v, h1⟩)
      simp only [mlookup, hk, if_false]
      exact ih hnd.2 h1

theorem mlookup_isSome_of_mem_keys {α β : Type} [DecidableEq α] {m : List (α × β)} {k : α}
    (h : k ∈ mkeys m) : ∃ v, mlookup m k = some v := by
  cases hv : mlookup m k with
  | none => exact absurd h ((mlookup_eq_none m k).mp hv)
  | some v => exact ⟨v, rfl⟩

theorem mlookup_minsert {α β : Type} [DecidableEq α] (m : List (α × β)) (k : α) (v : β)
    (k' : α) :
    mlookup (minsert m k v) k' = if k = k' then some v else mlookup m k' := by
  induction m with
  | nil => by_cases h : k = k' <;> simp [minsert, mlookup, h]
  | cons e rest ih =>
    obtain ⟨k0, v0⟩ := e
    by_cases h0 : k0 = k
    · subst h0
      by_cases h : k0 = k' <;> simp [minsert, mlookup, h]
    · by_cases h : k = k'
      · subst h
        simp [minsert, mlookup, h0, ih]
      · by_cases h1 : k0 = k'
        · subst h1
          simp [minsert, mlookup, h0, h]
        · simp [minsert, mlookup, h0, h, h1, ih]

theorem mkeys_minsert_of_mem {α β : Type} [DecidableEq α] {m : List (α × β)} {k : α} (v : β)
    (h : k ∈ mkeys m) : mkeys (minsert m k v) = mkeys m := by
  induction m with
  | nil => simp [mkeys] at h
  | cons e rest ih =>
    obtain ⟨k0, v0⟩ := e
    by_cases h0 : k0 = k
    · subst h0
      simp [minsert, mkeys_cons]
    · have h' : k ∈ mkeys rest := by
        rcases (by simpa [mkeys_cons] using h : k = k0 ∨ k ∈ mkeys rest) with h1 | h1
        · exact absurd h1.symm h0
        · exact h1
      simp [minsert, h0, mkeys_cons, ih h']

theorem mlookup_mpush {α β : Type} [DecidableEq α] (m : List (α × List β)) (k : α) (v : β)
    (k' : α) :
    mlookup (mpush m k v) k' =
      if k = k' then some (((mlookup m k).getD []) ++ [v]) else mlookup m k' := by
  induction m with
  | nil => by_cases h : k = k' <;> simp [mpush, mlookup, h]
  | cons e rest ih =>
    obtain ⟨k0, vs⟩ := e
    by_cases h0 : k0 = k
    · subst h0
      by_cases h : k0 = k' <;> simp [mpush, mlookup, h]
    · by_cases h : k = k'
      · subst h
        simp [mpush, mlookup, h0, ih]
      · by_cases h1 : k0 = k'
        · subst h1
          simp [mpush, mlookup, h0, h]
        · simp [mpush, mlookup, h0, h, h1, ih]

theorem mkeys_mpush {α β : Type} [DecidableEq α] (m : List (α × List β)) (k : α) (v : β) :
    mkeys (mpush m k v) = if k ∈ mkeys m then mkeys m else mkeys m ++ [k] := by
  induction m with
  | nil => simp [mpush, mkeys]
  | cons e rest ih =>
    obtain ⟨k0, vs⟩ := e
    by_cases h0 : k0 = k
    · subst h0
      simp [mpush, mkeys_cons]
    · by_cases h : k ∈ mkeys rest
      · simp [mpush, h0, mkeys_cons, ih, h, Ne.symm h0]
      · simp [mpush, h0, mkeys_cons, ih, h, Ne.symm h0]

theorem mkeys_mpush_nodup {α β : Type} [DecidableEq α] {m : List (α × List β)} (k : α) (v : β)
    (h : (mkeys m).Nodup) : (mkeys (mpush m k v)).Nodup := by
  rw [mkeys_mpush]
  by_cases hk : k ∈ mkeys m
  · simpa [hk] using h
  · simp only [hk, if_false]
    refine List.nodup_append.mpr ⟨h, List.nodup_singleton k, ?_⟩
    intro x hx hx2
    rw [List.mem_singleton] at hx2
    subst hx2
    exact hk hx

/-! ### Lemmas about `get_conflicts` -/

theorem stops_fold_occ (rid : RouteId) (stops : List GitStop) (s : StopId) :
    ∀ acc : List (StopId × List RouteId),
      ((mlookup (stops.foldl (fun a stop => mpush a stop.id rid) acc) s).getD []).length =
        ((mlookup acc s).getD []).length + stops.countP (fun st => decide (st.id = s)) := by
  induction stops with
  | nil => intro acc; simp
  | cons stop rest ih =>
    intro acc
    rw [List.foldl_cons, ih, List.countP_cons]
    by_cases h : stop.id = s
    · subst h
      simp [mlookup_mpush]
      omega
    · simp [mlookup_mpush, h]

theorem stops_fold_keys_nodup (rid : RouteId) (stops : List GitStop) :
    ∀ acc : List (StopId × List RouteId), (mkeys acc).Nodup →
      (mkeys (stops.foldl (fun a stop => mpush a stop.id rid) acc)).Nodup := by
  induction stops with
  | nil => intro acc h; simpa using h
  | cons stop rest ih => intro acc h; exact ih _ (mkeys_mpush_nodup _ _ h)

theorem routes_fold_occ (routes : List (RouteId × GitRoute)) (s : StopId) :
    ∀ acc : List (StopId × List RouteId),
      ((mlookup
          (routes.foldl
            (fun acc2 kr => kr.2.stops.foldl (fun a stop => mpush a stop.id kr.2.id) acc2) acc)
          s).getD []).length =
        ((mlookup acc s).getD []).length + stopOccurrences routes s := by
  induction routes with
  | nil => intro acc; simp [stopOccurrences]
  | cons kr rest ih =>
    intro acc
    rw [List.foldl_cons, ih, stops_fold_occ]
    simp [stopOccurrences]
    omega

theorem collect_stops_occ (routes : List (RouteId × GitRoute)) (s : StopId) :
    ((mlookup (collect_stops routes) s).getD []).length = stopOccurrences routes s := by
  have h := routes_fold_occ routes s []
  simpa [collect_stops, mlookup] using h

theorem collect_stops_keys_nodup (routes : List (RouteId × GitRoute)) :
    (mkeys (collect_stops routes)).Nodup := by
  suffices h : ∀ (rlist : List (RouteId × GitRoute)) (acc : List (StopId × List RouteId)),
      (mkeys acc).Nodup →
      (mkeys (rlist.foldl
        (fun acc2 kr => kr.2.stops.foldl (fun a stop => mpush a stop.id kr.2.id) acc2)
        acc)).Nodup by
    exact h routes [] (by simp [mkeys])
  intro rlist
  induction rlist with
  | nil => intro acc h; simpa using h
  | cons kr rest ih => intro acc h; exact ih _ (stops_fold_keys_nodup _ _ _ h)

theorem mkeys_filter_subset {α β : Type} (p : α × β → Bool) (m : List (α × β)) :
    mkeys (m.filter p) ⊆ mkeys m := by
  intro x hx
  obtain ⟨v, hv⟩ := mem_mkeys.mp hx
  exact mem_mkeys.mpr ⟨v, List.mem_of_mem_filter hv⟩

theorem mlookup_filter {α β : Type} [DecidableEq α] (p : α × β → Bool) {m : List (α × β)}
    (hnd : (mkeys m).Nodup) (k : α) :
    mlookup (m.filter p) k =
      match mlookup m k with
      | some v => if p (k, v) then some v else none
      | none => none := by
  induction m with
  | nil => simp [mlookup]
  | cons e rest ih =>
    obtain ⟨k0, v0⟩ := e
    rw [mkeys_cons, List.nodup_cons] at hnd
    by_cases h0 : k0 = k
    · subst h0
      by_cases hp : p (k0, v0)
      · simp [List.filter_cons, hp, mlookup]
      · have hnone : mlookup (rest.filter p) k0 = none :=
          (mlookup_eq_none _ _).mpr (fun hmem => hnd.1 (mkeys_filter_subset p rest hmem))
        simp [List.filter_cons, hp, mlookup, hnone]
    · by_cases hp : p (k0, v0) <;>
        simp [List.filter_cons, hp, mlookup, h0, ih hnd.2]

theorem get_conflicts_lookup (routes : List (RouteId × GitRoute)) (s : StopId) :
    mlookup (get_conflicts routes) s =
      match mlookup (collect_stops routes) s with
      | some l => if 1 < l.length then some l else none
      | none => none := by
  rw [get_conflicts, mlookup_filter _ (collect_stops_keys_nodup routes)]
  cases mlookup (collect_stops routes) s with
  | none => rfl
  | some l => by_cases h : 1 < l.length <;> simp [h]

theorem get_conflicts_lookup_length {routes : List (RouteId × GitRoute)} {s : StopId}
    {target : List RouteId} (h : mlookup (get_conflicts routes) s = some target) :
    target.length = stopOccurrences routes s ∧ 2 ≤ target.length := by
  rw [get_conflicts_lookup] at h
  cases hc : mlookup (collect_stops routes) s with
  | none => rw [hc] at h; simp at h
  | some l =>
    rw [hc] at h
    by_cases hl : 1 < l.length
    · simp [hl] at h
      subst h
      have := collect_stops_occ routes s
      rw [hc] at this
      simp at this
      omega
    · simp [hl] at h

theorem get_conflicts_isSome_iff (routes : List (RouteId × GitRoute)) (s : StopId) :
    (mlookup (get_conflicts routes) s).isSome = true ↔ 2 ≤ stopOccurrences routes s := by
  have hocc := collect_stops_occ routes s
  rw [get_conflicts_lookup]
  cases hc : mlookup (collect_stops routes) s with
  | none =>
    rw [hc] at hocc
    simp at hocc
    simp [← hocc]
  | some l =>
    rw [hc] at hocc
    simp at hocc
    by_cases hl : 1 < l.length <;> simp [hl] <;> omega

theorem mem_mpush_cases {α β : Type} [DecidableEq α] {m : List (α × List β)} {k k' : α}
    {v : β} {vs' : List β} (h : (k', vs') ∈ mpush m k v) :
    (k', vs') ∈ m ∨ (∃ vs0, (k', vs0) ∈ m ∧ k' = k ∧ vs' = vs0 ++ [v]) ∨
      (k' = k ∧ vs' = [v]) := by
  induction m with
  | nil =>
    simp [mpush, Prod.ext_iff] at h
    exact Or.inr (Or.inr h)
  | cons e rest ih =>
    obtain ⟨k0, vs0⟩ := e
    by_cases h0 : k0 = k
    · subst h0
      simp only [mpush, if_pos rfl] at h
      rcases List.mem_cons.mp h with h1 | h1
      · simp only [Prod.mk.injEq] at h1
        obtain ⟨h2, h3⟩ := h1
        refine Or.inr (Or.inl ⟨vs0, ?_, h2, h3⟩)
        rw [h2]
        exact List.mem_cons_self _ _
      · exact Or.inl (List.mem_cons_of_mem _ h1)
    · simp only [mpush, if_neg h0] at h
      rcases List.mem_cons.mp h with h1 | h1
      · exact Or.inl (h1 ▸ List.mem_cons_self _ _)
      · rcases ih h1 with h2 | h2 | h2
        · exact Or.inl (List.mem_cons_of_mem _ h2)
        · obtain ⟨vs1, hm, hk, hv⟩ := h2
          exact Or.inr (Or.inl ⟨vs1, List.mem_cons_of_mem _ hm, hk, hv⟩)
        · exact Or.inr (Or.inr h2)

theorem stops_fold_prov (Q : StopId → RouteId → Prop) (rid : RouteId) (stops : List GitStop) :
    ∀ acc : List (StopId × List RouteId),
      (∀ e ∈ acc, ∀ r ∈ e.2, Q e.1 r) → (∀ stop ∈ stops, Q stop.id rid) →
      ∀ e ∈ stops.foldl (fun a stop => mpush a stop.id rid) acc, ∀ r ∈ e.2, Q e.1 r := by
  induction stops with
  | nil => intro acc hacc _; simpa using hacc
  | cons stop rest ih =>
    intro acc hacc hstops
    rw [List.foldl_cons]
    refine ih _ ?_ (fun st hst => hstops st (List.mem_cons_of_mem _ hst))
    rintro ⟨k', vs'⟩ he r hr
    rcases mem_mpush_cases he with h1 | h1 | h1
    · exact hacc _ h1 r hr
    · obtain ⟨vs0, hm, hk, hv⟩ := h1
      subst hv
      rcases List.mem_append.mp hr with h2 | h2
      · exact hacc (k', vs0) hm r h2
      · rw [List.mem_singleton] at h2
        subst h2
        rw [show k' = stop.id from hk]
        exact hstops stop (List.mem_cons_self _ _)
    · obtain ⟨hk, hv⟩ := h1
      subst hv
      rw [List.mem_singleton] at hr
      subst hr
      rw [show k' = stop.id from hk]
      exact hstops stop (List.mem_cons_self _ _)

theorem collect_stops_prov (routes : List (RouteId × GitRoute)) :
    ∀ e ∈ collect_stops routes, ∀ r ∈ e.2,
      ∃ kr ∈ routes, kr.2.id = r ∧ e.1 ∈ kr.2.stops.map (fun st => st.id) := by
  suffices h : ∀ (rlist : List (RouteId × GitRoute)) (acc : List (StopId × List RouteId)),
      (∀ kr ∈ rlist, kr ∈ routes) →
      (∀ e ∈ acc, ∀ r ∈ e.2,
        ∃ kr ∈ routes, kr.2.id = r ∧ e.1 ∈ kr.2.stops.map (fun st => st.id)) →
      ∀ e ∈ rlist.foldl
          (fun acc2 kr => kr.2.stops.foldl (fun a stop => mpush a stop.id kr.2.id) acc2) acc,
        ∀ r ∈ e.2, ∃ kr ∈ routes, kr.2.id = r ∧ e.1 ∈ kr.2.stops.map (fun st => st.id) by
    intro e he r hr
    exact h routes [] (fun kr hkr => hkr) (by simp) e he r hr
  intro rlist
  induction rlist with
  | nil => intro acc _ hacc; simpa using hacc
  | cons kr rest ih =>
    intro acc hsub hacc
    rw [List.foldl_cons]
    refine ih _ (fun x hx => hsub x (List.mem_cons_of_mem _ hx)) ?_
    exact stops_fold_prov
      (fun s r => ∃ kr2 ∈ routes, kr2.2.id = r ∧ s ∈ kr2.2.stops.map (fun st => st.id))
      kr.2.id kr.2.stops acc hacc
      (fun stop hst =>
        ⟨kr, hsub kr (List.mem_cons_self _ _), rfl, List.mem_map.mpr ⟨stop, hst, rfl⟩⟩)

theorem get_conflicts_values {routes : List (RouteId × GitRoute)} {s : StopId}
    {target : List RouteId} (h : mlookup (get_conflicts routes) s = some target) :
    ∀ rid ∈ target, ∃ kr ∈ routes, kr.2.id = rid ∧ s ∈ kr.2.stops.map (fun st => st.id) := by
  intro rid hrid
  have hmem : (s, target) ∈ collect_stops routes :=
    List.mem_of_mem_filter (mem_of_mlookup h)
  exact collect_stops_prov routes (s, target) hmem rid hrid

theorem routesThrough_length_le (routes : List (RouteId × GitRoute)) (s : StopId) :
    (routesThrough routes s).length ≤ stopOccurrences routes s := by
  induction routes with
  | nil => simp [routesThrough, stopOccurrences]
  | cons kr rest ih =>
    by_cases h : s ∈ kr.2.stops.map (fun st => st.id)
    · have hc : 0 < kr.2.stops.countP (fun st => decide (st.id = s)) := by
        obtain ⟨stop, hst, hid⟩ := List.mem_map.mp h
        exact List.countP_pos_iff.mpr ⟨stop, hst, by simp [hid]⟩
      simp only [routesThrough, stopOccurrences, List.filter_cons, List.map_cons,
        List.sum_cons, decide_eq_true_eq, if_pos h, List.length_cons] at *
      omega
    · simp only [routesThrough, stopOccurrences, List.filter_cons, List.map_cons,
        List.sum_cons, decide_eq_true_eq, if_neg h] at *
      omega

theorem routesThrough_nodup {routes : List (RouteId × GitRoute)}
    (h : (mkeys routes).Nodup) (s : StopId) : (routesThrough routes s).Nodup := by
  have hsub : List.Sublist (routesThrough routes s) (mkeys routes) :=
    List.Sublist.map _ (List.filter_sublist _)
  exact h.sublist hsub

theorem mem_routesThrough {routes : List (RouteId × GitRoute)} {s : StopId} {k : RouteId}
    {route : GitRoute} (hm : (k, route) ∈ routes)
    (hs : s ∈ route.stops.map (fun st => st.id)) : k ∈ routesThrough routes s :=
  List.mem_map.mpr ⟨(k, route), List.mem_filter.mpr ⟨hm, decide_eq_true hs⟩, rfl⟩

/-- C2 (amended).  The key set of `get_conflicts` is exactly the stop ids
with at least two *stop-visit occurrences* over all routes, a route counting
once per visit — not the stop ids in at least two distinct routes.  (For
inputs in which no route visits a stop twice the two notions coincide; the
counterexample above separates them.) -/
theorem conflict_keys_iff_two_occurrences (routes : List (RouteId × GitRoute)) (s : StopId) :
    (mlookup (get_conflicts routes) s).isSome = true ↔ 2 ≤ stopOccurrences routes s :=
  get_conflicts_isSome_iff routes s

/-- C9 (confirmed).  Advancing an already-`Built` state via either operation
yields the corresponding panic, and `did_stop` with an explicit index other
than `previousBuiltIndex + 1` (or other than 0 from `Untouched`) also
panics; no such call is silently corrected or ignored. -/
theorem illegal_transitions_error :
    ∀ c c0 i idx len : Nat,
      RouteBuildState.did_commit (.Built c0) c = .error .alreadyBuiltCommit ∧
      RouteBuildState.did_stop (.Built c0) i c = .error .alreadyBuiltStop ∧
      (0 < i → RouteBuildState.did_stop (.Untouched len) i c = .error .excessiveIndex) ∧
      (idx + 1 ≠ i → RouteBuildState.did_stop (.Pending idx len c0) i c =
        .error .stopAlreadyBuilt) := by
  intro c c0 i idx len
  refine ⟨rfl, rfl, ?_, ?_⟩
  · intro h
    simp [RouteBuildState.did_stop, h]
  · intro h
    simp [RouteBuildState.did_stop, h]

/-- Witness for the C9 theorem at concrete states and indices. -/
theorem illegal_transitions_error_witness :
    RouteBuildState.did_commit (.Built 4) 9 = .error .alreadyBuiltCommit ∧
    RouteBuildState.did_stop (.Built 4) 1 9 = .error .alreadyBuiltStop ∧
    RouteBuildState.did_stop (.Untouched 3) 2 9 = .error .excessiveIndex ∧
    RouteBuildState.did_stop (.Pending 0 3 4) 5 9 = .error .stopAlreadyBuilt :=
  ⟨(illegal_transitions_error 9 4 1 0 3).1,
   (illegal_transitions_error 9 4 1 0 3).2.1,
   (illegal_transitions_error 9 4 2 0 3).2.2.1 (by decide),
   (illegal_transitions_error 9 4 5 0 3).2.2.2 (by decide)⟩

/-! ### Lemmas about `build_route_alone` -/

theorem drop_eq_cons_of_get? {α : Type} {l : List α} {i : Nat} {a : α}
    (h : l.get? i = some a) : l.drop i = a :: l.drop (i + 1) := by
  induction l generalizing i with
  | nil => simp at h
  | cons x xs ih =>
    cases i with
    | zero =>
      simp at h
      subst h
      simp
    | succ j =>
      simp only [List.get?_cons_succ] at h
      simp only [List.drop_succ_cons]
      exact ih h

theorem did_stop_ok_commit {st : RouteBuildState} {i c : Nat} {st2 : RouteBuildState}
    (h : st.did_stop i c = .ok st2) : st2.commit? = some c := by
  cases st with
  | Built c0 => simp [RouteBuildState.did_stop] at h
  | Untouched max =>
    simp only [RouteBuildState.did_stop] at h
    split_ifs at h with h1
    injection h with h4
    subst h4
    rfl
  | Pending idx max c0 =>
    simp only [RouteBuildState.did_stop] at h
    split_ifs at h with h1 h2 h3
    · injection h with h4
      subst h4
      rfl
    · injection h with h4
      subst h4
      rfl

theorem buildStopsFrom_commits (route : GitRoute) (cks : List StopId) :
    ∀ n i : Nat, n = route.stops.length - i →
      ∀ (st : RouteBuildState) (repo repo2 : Repo) (st2 : RouteBuildState),
      buildStopsFrom route cks n i st repo = .ok (repo2, st2) →
      repo2.commits = repo.commits ++
        chainCommits route.name
          ((route.stops.drop i).takeWhile (fun s => decide (s.id ∉ cks)))
          ((st.commit?).toList) repo.commits.length := by
  intro n
  induction n with
  | zero =>
    intro i hi st repo repo2 st2 h
    simp only [buildStopsFrom, Except.ok.injEq, Prod.mk.injEq] at h
    obtain ⟨h1, _⟩ := h
    have hdrop : route.stops.drop i = [] := List.drop_eq_nil_of_le (by omega)
    rw [← h1, hdrop]
    simp [chainCommits]
  | succ n ih =>
    intro i hi st repo repo2 st2 h
    rw [buildStopsFrom] at h
    cases hstop : route.stops.get? i with
    | none =>
      rw [hstop] at h
      simp at h
    | some stop =>
      rw [hstop] at h
      dsimp only at h
      have hdrop : route.stops.drop i = stop :: route.stops.drop (i + 1) :=
        drop_eq_cons_of_get? hstop
      by_cases hc : stop.id ∈ cks
      · rw [if_pos hc] at h
        simp only [Except.ok.injEq, Prod.mk.injEq] at h
        obtain ⟨h1, _⟩ := h
        rw [← h1, hdrop]
        simp [List.takeWhile_cons, hc, chainCommits]
      · rw [if_neg hc] at h
        simp only [mkCommit] at h
        cases hds : st.did_stop i repo.commits.length with
        | error e =>
          simp only [hds] at h
          exact Except.noConfusion h
        | ok stNext =>
          simp only [hds] at h
          have hrec := ih (i + 1) (by omega) stNext _ repo2 st2 h
          have hcom : stNext.commit? = some repo.commits.length := did_stop_ok_commit hds
          rw [hdrop]
          rw [List.takeWhile_cons, if_pos (by simpa using hc)]
          cases hco : st.commit? with
          | some c =>
            rw [hco] at hrec
            simp only [hcom, Option.toList_some, List.length_append, List.length_cons,
              List.length_nil] at hrec
            rw [hrec]
            simp [chainCommits, Option.toList]
          | none =>
            rw [hco] at hrec
            simp only [hcom, Option.toList_some, List.length_append, List.length_cons,
              List.length_nil] at hrec
            rw [hrec]
            simp [chainCommits, Option.toList]

theorem buildStopsFrom_ok (route : GitRoute) (cks : List StopId)
    (h2 : 2 ≤ route.stops.length) :
    ∀ n i : Nat, n = route.stops.length - i →
      ∀ (st : RouteBuildState) (repo : Repo),
      ((∃ c, st = .Built c ∧ i = route.stops.length) ∨
       (st = .Untouched route.stops.length ∧ i = 0) ∨
       (∃ idx c, st = .Pending idx route.stops.length c ∧ i = idx + 1 ∧
         i < route.stops.length)) →
      ∃ repo2 st2, buildStopsFrom route cks n i st repo = .ok (repo2, st2) ∧
        stateOkCore route cks st2 ∧ stateRem st2 ≤ stateRem st := by
  intro n
  induction n with
  | zero =>
    intro i hi st repo hentry
    rcases hentry with ⟨c, rfl, hieq⟩ | ⟨rfl, hieq⟩ | ⟨idx, c, rfl, hieq, hlt⟩
    · exact ⟨repo, .Built c, rfl, trivial, Nat.le_refl _⟩
    · exfalso; omega
    · exfalso; omega
  | succ n ih =>
    intro i hi st repo hentry
    have hlt : i < route.stops.length := by
      rcases hentry with ⟨c, rfl, hieq⟩ | ⟨rfl, hieq⟩ | ⟨idx, c, rfl, hieq, hlt⟩ <;> omega
    obtain ⟨stop, hstop⟩ : ∃ stop, route.stops.get? i = some stop := by
      cases hs : route.stops.get? i with
      | none => exact absurd (List.get?_eq_none.mp hs) (by omega)
      | some stop => exact ⟨stop, rfl⟩
    rw [buildStopsFrom, hstop]
    dsimp only
    by_cases hc : stop.id ∈ cks
    · rw [if_pos hc]
      refine ⟨repo, st, rfl, ?_, Nat.le_refl _⟩
      rcases hentry with ⟨c, rfl, hieq⟩ | ⟨rfl, hieq⟩ | ⟨idx, c, rfl, hieq, hlt2⟩
      · exact trivial
      · subst hieq
        exact ⟨rfl, stop, hstop, hc⟩
      · subst hieq
        exact ⟨rfl, by omega, stop, hstop, hc⟩
    · rw [if_neg hc]
      rcases hentry with ⟨c, rfl, hieq⟩ | ⟨rfl, hieq⟩ | ⟨idx, c, rfl, hieq, hlt2⟩
      · exfalso; omega
      · subst hieq
        obtain ⟨repo2, st2, hok, hcore, hrem⟩ :=
          ih 1 (by omega) (.Pending 0 route.stops.length repo.commits.length)
            ⟨repo.commits ++ [⟨stop.name, [], route.name⟩],
              minsert repo.branches route.name repo.commits.length⟩
            (Or.inr (Or.inr ⟨0, repo.commits.length, rfl, rfl, by omega⟩))
        refine ⟨repo2, st2, hok, hcore, ?_⟩
        simp only [stateRem] at hrem ⊢
        omega
      · subst hieq
        simp only [RouteBuildState.commit?, RouteBuildState.did_stop, mkCommit]
        rw [if_neg (by omega : ¬(idx + 1 ≠ idx + 1))]
        rw [if_neg (by omega : ¬(route.stops.length ≤ idx))]
        by_cases hfin : idx + 1 + 1 = route.stops.length
        · rw [if_pos hfin]
          obtain ⟨repo2, st2, hok, hcore, hrem⟩ :=
            ih (idx + 1 + 1) (by omega) (.Built repo.commits.length)
              ⟨repo.commits ++ [⟨stop.name, [c], route.name⟩],
                minsert repo.branches route.name repo.commits.length⟩
              (Or.inl ⟨repo.commits.length, rfl, by omega⟩)
          refine ⟨repo2, st2, hok, hcore, ?_⟩
          simp only [stateRem] at hrem ⊢
          omega
        · rw [if_neg hfin]
          obtain ⟨repo2, st2, hok, hcore, hrem⟩ :=
            ih (idx + 1 + 1) (by omega)
              (.Pending (idx + 1) route.stops.length repo.commits.length)
              ⟨repo.commits ++ [⟨stop.name, [c], route.name⟩],
                minsert repo.branches route.name repo.commits.length⟩
              (Or.inr (Or.inr ⟨idx + 1, repo.commits.length, rfl, rfl, by omega⟩))
          refine ⟨repo2, st2, hok, hcore, ?_⟩
          simp only [stateRem] at hrem ⊢
          omega

theorem build_route_alone_ok {route : GitRoute} {cks : List StopId}
    (h2 : 2 ≤ route.stops.length) {st : RouteBuildState} (hst : stateLenOk route st)
    (repo : Repo) :
    ∃ repo2 st2, build_route_alone route st cks repo = .ok (repo2, st2) ∧
      stateOkCore route cks st2 ∧ stateRem st2 ≤ stateRem st := by
  cases st with
  | Built c => exact ⟨repo, .Built c, rfl, trivial, Nat.le_refl _⟩
  | Untouched len =>
    have hlen : len = route.stops.length := hst
    subst hlen
    exact buildStopsFrom_ok route cks h2 route.stops.length 0 (by omega)
      (.Untouched route.stops.length) repo (Or.inr (Or.inl ⟨rfl, rfl⟩))
  | Pending idx len c =>
    have hlen : len = route.stops.length := hst
    subst hlen
    by_cases hend : route.stops.length ≤ idx + 1
    · refine ⟨repo, .Built c, ?_, trivial, Nat.zero_le _⟩
      simp only [build_route_alone]
      rw [if_pos hend]
    · obtain ⟨repo2, st2, hok, hcore, hrem⟩ :=
        buildStopsFrom_ok route cks h2 (route.stops.length - (idx + 1)) (idx + 1) rfl
          (.Pending idx route.stops.length c) repo
          (Or.inr (Or.inr ⟨idx, c, rfl, rfl, by omega⟩))
      refine ⟨repo2, st2, ?_, hcore, hrem⟩
      simp only [build_route_alone]
      rw [if_neg hend]
      exact hok

/-- C8 (confirmed).  For every route, entry state, conflict-key set and
store, when `build_route_alone` returns, the commits it appended to the
store are exactly one commit per stop of the spec's segment — from just
after the current built index (index 0 if `Untouched`) up to but not
including the first conflict stop, or through the route's end — each with
the stop's name as message on the route's branch, the first parented on the
route's previous head commit (no parent when the route had none) and each
later one parented on its predecessor; in particular no commit is ever
created for a conflict stop, and a `Built` entry state returns unchanged
having created nothing. -/
theorem build_route_alone_commits_spec :
    ∀ (route : GitRoute) (prev : RouteBuildState) (cks : List StopId) (repo repo2 : Repo)
      (st2 : RouteBuildState),
      build_route_alone route prev cks repo = .ok (repo2, st2) →
      repo2.commits = repo.commits ++
        chainCommits route.name (specSegmentOf route cks prev) (prev.commit?).toList
          repo.commits.length ∧
      (isBuiltState prev = true → repo2 = repo ∧ st2 = prev) := by
  intro route prev cks repo repo2 st2 h
  cases prev with
  | Built c =>
    have h' : repo = repo2 ∧ RouteBuildState.Built c = st2 := by
      simpa [build_route_alone, Prod.ext_iff] using h
    refine ⟨?_, fun _ => ⟨h'.1.symm, h'.2.symm⟩⟩
    rw [← h'.1]
    simp [specSegmentOf, chainCommits]
  | Untouched len =>
    refine ⟨?_, fun hb => by simp [isBuiltState] at hb⟩
    have hmain := buildStopsFrom_commits route cks route.stops.length 0 (by omega)
      (.Untouched len) repo repo2 st2 h
    simpa [specSegmentOf, specSegment, resumeIndex] using hmain
  | Pending idx len c =>
    refine ⟨?_, fun hb => by simp [isBuiltState] at hb⟩
    by_cases hend : route.stops.length ≤ idx + 1
    · simp only [build_route_alone] at h
      rw [if_pos hend] at h
      have h' : repo = repo2 ∧ RouteBuildState.Built c = st2 := by
        simpa [Prod.ext_iff] using h
      rw [← h'.1]
      have hdrop : route.stops.drop (idx + 1) = [] := List.drop_eq_nil_of_le hend
      simp [specSegmentOf, specSegment, resumeIndex, hdrop, chainCommits]
    · simp only [build_route_alone] at h
      rw [if_neg hend] at h
      have hmain := buildStopsFrom_commits route cks (route.stops.length - (idx + 1))
        (idx + 1) rfl (.Pending idx len c) repo repo2 st2 h
      simpa [specSegmentOf, specSegment, resumeIndex] using hmain

/-- Witness for the C8 theorem: a three-stop route entered `Untouched` with
its middle stop shared builds exactly the one-commit chain for its first
stop. -/
theorem build_route_alone_commits_spec_witness :
    (Repo.mk [⟨"A1", [], "LineA"⟩] [("LineA", 0)]).commits =
      (Repo.mk [] []).commits ++
        chainCommits routeAX.name (specSegmentOf routeAX ["sh"] (.Untouched 3))
          ((RouteBuildState.Untouched 3).commit?).toList
          (Repo.mk [] []).commits.length ∧
    (isBuiltState (.Untouched 3) = true →
      Repo.mk [⟨"A1", [], "LineA"⟩] [("LineA", 0)] = Repo.mk [] [] ∧
      RouteBuildState.Pending 0 3 0 = .Untouched 3) :=
  build_route_alone_commits_spec routeAX (.Untouched 3) ["sh"] (Repo.mk [] [])
    (Repo.mk [⟨"A1", [], "LineA"⟩] [("LineA", 0)]) (.Pending 0 3 0) rfl

/-! ### Lemmas about `find_dependencies` -/

theorem waitingKeys_cons (routes : List (RouteId × GitRoute)) (e : RouteId × RouteBuildState)
    (rest : States) (s : StopId) :
    waitingKeys routes (e :: rest) s =
      if fdNext routes e.1 e.2 = some s then e.1 :: waitingKeys routes rest s
      else waitingKeys routes rest s := by
  by_cases h : fdNext routes e.1 e.2 = some s <;> simp [waitingKeys, List.filter_cons, h]

theorem fdNext_some_elim {routes : List (RouteId × GitRoute)} {rid : RouteId}
    {st : RouteBuildState} {s : StopId} (h : fdNext routes rid st = some s) :
    ∃ route stop i, mlookup routes rid = some route ∧ route.stops.get? i = some stop ∧
      stop.id = s := by
  cases st with
  | Built c => simp [fdNext, fdNextIdx] at h
  | Untouched len =>
    cases hr : mlookup routes rid with
    | none => simp [fdNext, fdNextIdx, hr] at h
    | some route =>
      cases hs : route.stops.get? 0 with
      | none =>
        have hs2 : route.stops[0]? = none := by rw [← List.get?_eq_getElem?]; exact hs
        simp [fdNext, fdNextIdx, hr, hs2] at h
      | some stop =>
        have hs2 : route.stops[0]? = some stop := by rw [← List.get?_eq_getElem?]; exact hs
        have hid : stop.id = s := by simpa [fdNext, fdNextIdx, hr, hs2] using h
        exact ⟨route, stop, 0, rfl, hs, hid⟩
  | Pending idx len c =>
    cases hr : mlookup routes rid with
    | none => simp [fdNext, fdNextIdx, hr] at h
    | some route =>
      cases hs : route.stops.get? (idx + 1) with
      | none =>
        have hs2 : route.stops[idx + 1]? = none := by rw [← List.get?_eq_getElem?]; exact hs
        simp [fdNext, fdNextIdx, hr, hs2] at h
      | some stop =>
        have hs2 : route.stops[idx + 1]? = some stop := by
          rw [← List.get?_eq_getElem?]; exact hs
        have hid : stop.id = s := by simpa [fdNext, fdNextIdx, hr, hs2] using h
        exact ⟨route, stop, idx + 1, rfl, hs, hid⟩

theorem findDepsAux_spec (routes : List (RouteId × GitRoute)) :
    ∀ (entries : States) (acc d : List (StopId × List RouteId)),
      findDepsAux routes entries acc = .ok d →
      (∀ s, (mlookup d s).getD [] = (mlookup acc s).getD [] ++ waitingKeys routes entries s) ∧
      ((mkeys acc).Nodup → (mkeys d).Nodup) ∧
      ((∀ p ∈ acc, p.2 ≠ ([] : List RouteId)) → ∀ p ∈ d, p.2 ≠ []) ∧
      (∀ e ∈ entries, isBuiltState e.2 = false → (fdNext routes e.1 e.2).isSome = true) := by
  intro entries
  induction entries with
  | nil =>
    intro acc d h
    simp only [findDepsAux, Except.ok.injEq] at h
    subst h
    simp [waitingKeys]
  | cons e rest ih =>
    obtain ⟨rid, st⟩ := e
    intro acc d h
    cases st with
    | Built c =>
      obtain ⟨h1, h2, h3, h4⟩ := ih acc d h
      refine ⟨?_, h2, h3, ?_⟩
      · intro s
        rw [h1 s, waitingKeys_cons]
        rw [if_neg (by simp [fdNext, fdNextIdx])]
      · rintro e he hb
        rcases List.mem_cons.mp he with rfl | he2
        · simp [isBuiltState] at hb
        · exact h4 e he2 hb
    | Untouched len =>
      cases hroute : mlookup routes rid with
      | none =>
        simp only [findDepsAux, hroute] at h
        exact absurd h (by simp)
      | some route =>
        cases hstop : route.stops.get? 0 with
        | none =>
          simp only [findDepsAux, hroute, hstop] at h
          exact absurd h (by simp)
        | some stop =>
          simp only [findDepsAux, hroute, hstop] at h
          obtain ⟨h1, h2, h3, h4⟩ := ih _ d h
          have hfd : fdNext routes rid (.Untouched len) = some stop.id := by
            simp only [fdNext, fdNextIdx, hroute, hstop]
          refine ⟨?_, ?_, ?_, ?_⟩
          · intro s
            rw [h1 s, waitingKeys_cons, mlookup_mpush]
            by_cases hs : stop.id = s
            · subst hs
              rw [if_pos rfl, if_pos (by simp [hfd])]
              simp
            · rw [if_neg hs, if_neg (by simp [hfd, hs])]
          · intro hacc
            exact h2 (mkeys_mpush_nodup _ _ hacc)
          · intro hacc
            refine h3 ?_
            rintro ⟨k', vs'⟩ hp
            rcases mem_mpush_cases hp with hp1 | hp1 | hp1
            · exact hacc _ hp1
            · obtain ⟨vs0, _, _, rfl⟩ := hp1
              simp
            · obtain ⟨_, rfl⟩ := hp1
              simp
          · rintro e he hb
            rcases List.mem_cons.mp he with rfl | he2
            · simp [hfd]
            · exact h4 e he2 hb
    | Pending idx len c =>
      cases hroute : mlookup routes rid with
      | none =>
        simp only [findDepsAux, hroute] at h
        exact absurd h (by simp)
      | some route =>
        cases hstop : route.stops.get? (idx + 1) with
        | none =>
          simp only [findDepsAux, hroute, hstop] at h
          exact absurd h (by simp)
        | some stop =>
          simp only [findDepsAux, hroute, hstop] at h
          obtain ⟨h1, h2, h3, h4⟩ := ih _ d h
          have hfd : fdNext routes rid (.Pending idx len c) = some stop.id := by
            simp only [fdNext, fdNextIdx, hroute, hstop]
          refine ⟨?_, ?_, ?_, ?_⟩
          · intro s
            rw [h1 s, waitingKeys_cons, mlookup_mpush]
            by_cases hs : stop.id = s
            · subst hs
              rw [if_pos rfl, if_pos (by simp [hfd])]
              simp
            · rw [if_neg hs, if_neg (by simp [hfd, hs])]
          · intro hacc
            exact h2 (mkeys_mpush_nodup _ _ hacc)
          · intro hacc
            refine h3 ?_
            rintro ⟨k', vs'⟩ hp
            rcases mem_mpush_cases hp with hp1 | hp1 | hp1
            · exact hacc _ hp1
            · obtain ⟨vs0, _, _, rfl⟩ := hp1
              simp
            · obtain ⟨_, rfl⟩ := hp1
              simp
          · rintro e he hb
            rcases List.mem_cons.mp he with rfl | he2
            · simp [hfd]
            · exact h4 e he2 hb

theorem find_dependencies_spec {routes : List (RouteId × GitRoute)} {states : States}
    {deps : List (StopId × List RouteId)}
    (h : find_dependencies routes states = .ok deps) :
    (mkeys deps).Nodup ∧
    (∀ p ∈ deps, p.2 = waitingKeys routes states p.1 ∧ p.2 ≠ []) ∧
    (∀ e ∈ states, isBuiltState e.2 = false → (fdNext routes e.1 e.2).isSome = true) := by
  obtain ⟨h1, h2, h3, h4⟩ := findDepsAux_spec routes states [] deps h
  have hnodup := h2 (by simp [mkeys])
  refine ⟨hnodup, ?_, h4⟩
  rintro ⟨s, rs⟩ hp
  have hlook : mlookup deps s = some rs := mlookup_of_mem_nodup hnodup hp
  constructor
  · have hw := h1 s
    rw [hlook] at hw
    simpa [mlookup] using hw
  · exact h3 (by simp) _ hp

theorem find_dependencies_ok {routes : List (RouteId × GitRoute)} {cks : List StopId}
    {states : States}
    (hinv : ∀ e ∈ states,
      ∃ route, mlookup routes e.1 = some route ∧ stateOkCore route cks e.2) :
    ∃ deps, find_dependencies routes states = .ok deps := by
  rw [find_dependencies]
  suffices h : ∀ entries : States,
      (∀ e ∈ entries, ∃ route, mlookup routes e.1 = some route ∧ stateOkCore route cks e.2) →
      ∀ acc, ∃ deps, findDepsAux routes entries acc = .ok deps from h states hinv []
  intro entries
  induction entries with
  | nil => exact fun _ acc => ⟨acc, rfl⟩
  | cons e rest ih =>
    obtain ⟨rid, st⟩ := e
    intro hall acc
    obtain ⟨route, hroute, hcore⟩ := hall (rid, st) (List.mem_cons_self _ _)
    have hrest := fun e he => hall e (List.mem_cons_of_mem _ he)
    cases st with
    | Built c => exact ih hrest acc
    | Untouched len =>
      obtain ⟨stop, hstop, _⟩ := hcore.2
      obtain ⟨deps, hd⟩ := ih hrest (mpush acc stop.id rid)
      refine ⟨deps, ?_⟩
      simp only [findDepsAux, hroute, hstop]
      exact hd
    | Pending idx len c =>
      obtain ⟨stop, hstop, _⟩ := hcore.2.2
      obtain ⟨deps, hd⟩ := ih hrest (mpush acc stop.id rid)
      refine ⟨deps, ?_⟩
      simp only [findDepsAux, hroute, hstop]
      exact hd

theorem find_dependencies_nil_allBuilt {routes : List (RouteId × GitRoute)} {states : States}
    {deps : List (StopId × List RouteId)} (h : find_dependencies routes states = .ok deps)
    (hnil : deps.length = 0) : allBuilt states = true := by
  obtain ⟨h1, _, _, h4⟩ := findDepsAux_spec routes states [] deps h
  have hdeps : deps = [] := List.length_eq_zero.mp hnil
  subst hdeps
  rw [allBuilt, List.all_eq_true]
  intro e he
  cases hbb : isBuiltState e.2 with
  | true => rfl
  | false =>
    exfalso
    have hsome := h4 e he hbb
    obtain ⟨s, hs⟩ := Option.isSome_iff_exists.mp hsome
    have hw : waitingKeys routes states s = [] := by simpa [mlookup] using (h1 s).symm
    have hmem : e.1 ∈ waitingKeys routes states s := by
      rw [waitingKeys]
      refine List.mem_map.mpr ⟨e, List.mem_filter.mpr ⟨he, ?_⟩, rfl⟩
      simp [hs]
    rw [hw] at hmem
    simp at hmem

/-- C7 (confirmed).  The driver creates a merge commit for a dependency
group `(s, rs)` exactly when the ready guard `target.len() == dep_routes.len()`
passes, `target` being the `ConflictSet` entry of `s`.  Whenever that guard
passes on a group produced by `find_dependencies`, every route of the input
that passes through stop `s` is already in the waiting group `rs` — so a
merge is never created while some route through the stop has not caught up
to it.  (The entry's length counts stop-visit occurrences, so with a
duplicate visit the guard can never pass, which only strengthens the
never-partial-merge property.) -/
theorem ready_group_has_all_participants :
    ∀ (routes : List (RouteId × GitRoute)) (states : States)
      (deps : List (StopId × List RouteId)) (s : StopId) (rs target : List RouteId),
      (mkeys routes).Nodup →
      (mkeys states).Nodup →
      find_dependencies routes states = .ok deps →
      (s, rs) ∈ deps →
      mlookup (get_conflicts routes) s = some target →
      target.length = rs.length →
      ∀ k route, (k, route) ∈ routes → s ∈ route.stops.map (fun st => st.id) → k ∈ rs := by
  intro routes states deps s rs target hrn hsn hfd hmem hconf hlen k route hkr hks
  obtain ⟨hdnodup, hvals, _⟩ := find_dependencies_spec hfd
  obtain ⟨hrs_eq0, hrs_ne0⟩ := hvals (s, rs) hmem
  have hrs_eq : rs = waitingKeys routes states s := hrs_eq0
  have hrs_nodup : rs.Nodup := by
    rw [hrs_eq, waitingKeys]
    exact hsn.sublist (List.Sublist.map _ (List.filter_sublist _))
  have hsub : rs ⊆ routesThrough routes s := by
    rw [hrs_eq]
    intro rid hrid
    obtain ⟨e, hef, heq⟩ := List.mem_map.mp hrid
    have hfil := List.mem_filter.mp hef
    have hnext : fdNext routes e.1 e.2 = some s := by simpa using hfil.2
    obtain ⟨route', stop, i, hr, hgs, hsid⟩ := fdNext_some_elim hnext
    have hmr := mem_of_mlookup hr
    have hmemid : s ∈ route'.stops.map (fun st => st.id) := by
      subst hsid
      exact List.mem_map.mpr ⟨stop, List.get?_mem hgs, rfl⟩
    rw [← heq]
    exact mem_routesThrough hmr hmemid
  have h1 : rs.length ≤ (routesThrough routes s).length :=
    (hrs_nodup.subperm hsub).length_le
  have h2 : (routesThrough routes s).length ≤ stopOccurrences routes s :=
    routesThrough_length_le routes s
  have h3 : target.length = stopOccurrences routes s := (get_conflicts_lookup_length hconf).1
  have hperm : List.Perm rs (routesThrough routes s) :=
    (hrs_nodup.subperm hsub).perm_of_length_le (by omega)
  exact hperm.symm.subset (mem_routesThrough hkr hks)

/-- Witness for the C7 theorem: the two crossing routes of `crossInput`,
both waiting at the shared stop after bootstrap, form a ready group that
indeed contains every route through the shared stop. -/
theorem ready_group_has_all_participants_witness :
    ("rB", routeBX) ∈ crossInput ∧ "rB" ∈ (["rA", "rB"] : List RouteId) :=
  ⟨by decide,
   ready_group_has_all_participants crossInput crossStates [("sh", ["rA", "rB"])] "sh"
     ["rA", "rB"] ["rA", "rB"] (by decide) (by decide) rfl (by decide) rfl rfl
     "rB" routeBX (by decide) (by decide)⟩

/-! ### Lemmas about states maps, the measure, and `did_commit` -/

theorem mem_minsert_cases {α β : Type} [DecidableEq α] {m : List (α × β)} {k k' : α}
    {v v' : β} (hnd : (mkeys m).Nodup) (h : (k', v') ∈ minsert m k v) :
    ((k', v') ∈ m ∧ k' ≠ k) ∨ (k' = k ∧ v' = v) := by
  induction m with
  | nil =>
    simp [minsert, Prod.ext_iff] at h
    exact Or.inr h
  | cons e rest ih =>
    obtain ⟨k0, v0⟩ := e
    rw [mkeys_cons, List.nodup_cons] at hnd
    by_cases h0 : k0 = k
    · subst h0
      simp only [minsert, if_pos rfl] at h
      rcases List.mem_cons.mp h with h1 | h1
      · simp only [Prod.mk.injEq] at h1
        exact Or.inr h1
      · by_cases hk : k' = k0
        · exfalso
          subst hk
          exact hnd.1 (mem_mkeys.mpr ⟨v', h1⟩)
        · exact Or.inl ⟨List.mem_cons_of_mem _ h1, hk⟩
    · simp only [minsert, if_neg h0] at h
      rcases List.mem_cons.mp h with h1 | h1
      · simp only [Prod.mk.injEq] at h1
        obtain ⟨rfl, rfl⟩ := h1
        exact Or.inl ⟨List.mem_cons_self _ _, fun hkk => h0 hkk⟩
      · rcases ih hnd.2 h1 with ⟨h2, h3⟩ | h2
        · exact Or.inl ⟨List.mem_cons_of_mem _ h2, h3⟩
        · exact Or.inr h2

theorem statesMeasure_minsert {states : States} {rid : RouteId}
    {stOld stNew : RouteBuildState} (hnd : (mkeys states).Nodup)
    (hlook : mlookup states rid = some stOld) :
    statesMeasure (minsert states rid stNew) + stateRem stOld =
      statesMeasure states + stateRem stNew := by
  induction states with
  | nil => simp [mlookup] at hlook
  | cons e rest ih =>
    obtain ⟨k0, v0⟩ := e
    rw [mkeys_cons, List.nodup_cons] at hnd
    by_cases h0 : k0 = rid
    · subst h0
      simp [mlookup] at hlook
      subst hlook
      simp [minsert, statesMeasure]
      omega
    · simp only [mlookup, if_neg h0] at hlook
      simp only [minsert, if_neg h0, statesMeasure, List.map_cons, List.sum_cons]
      have := ih hnd.2 hlook
      simp only [statesMeasure] at this
      omega

theorem statesMeasure_minsert_le {states : States} {rid : RouteId}
    {stOld stNew : RouteBuildState} (hnd : (mkeys states).Nodup)
    (hlook : mlookup states rid = some stOld) (hle : stateRem stNew ≤ stateRem stOld) :
    statesMeasure (minsert states rid stNew) ≤ statesMeasure states := by
  have := @statesMeasure_minsert states rid stOld stNew hnd hlook
  omega

theorem statesMeasure_minsert_lt {states : States} {rid : RouteId}
    {stOld stNew : RouteBuildState} (hnd : (mkeys states).Nodup)
    (hlook : mlookup states rid = some stOld) (hlt : stateRem stNew < stateRem stOld) :
    statesMeasure (minsert states rid stNew) < statesMeasure states := by
  have := @statesMeasure_minsert states rid stOld stNew hnd hlook
  omega

theorem stateOkCore_lenOk {route : GitRoute} {cks : List StopId} {st : RouteBuildState}
    (h : stateOkCore route cks st) : stateLenOk route st := by
  cases st with
  | Built c => trivial
  | Untouched n => exact h.1
  | Pending idx len c => exact h.1

theorem did_commit_ok_simple {st : RouteBuildState} (hb : isBuiltState st = false) (c : Nat) :
    ∃ st2, st.did_commit c = .ok st2 := by
  cases st with
  | Built c0 => simp [isBuiltState] at hb
  | Untouched n => exact ⟨.Pending 0 n c, rfl⟩
  | Pending idx len c0 =>
    by_cases hfin : idx + 2 = len
    · exact ⟨.Built c, by simp [RouteBuildState.did_commit, hfin]⟩
    · exact ⟨.Pending (idx + 1) len c, by simp [RouteBuildState.did_commit, hfin]⟩

theorem did_commit_ok {route : GitRoute} {cks : List StopId} {st : RouteBuildState}
    (hb : isBuiltState st = false) (hcore : stateOkCore route cks st)
    (h2 : 2 ≤ route.stops.length) (c : Nat) :
    ∃ st2, st.did_commit c = .ok st2 ∧ stateLenOk route st2 ∧
      stateRem st2 < stateRem st := by
  cases st with
  | Built c0 => simp [isBuiltState] at hb
  | Untouched n =>
    refine ⟨.Pending 0 n c, rfl, hcore.1, ?_⟩
    have hn : n = route.stops.length := hcore.1
    simp only [stateRem]
    omega
  | Pending idx len c0 =>
    obtain ⟨hlen, hidx, _⟩ := hcore
    by_cases hfin : idx + 2 = len
    · refine ⟨.Built c, by simp [RouteBuildState.did_commit, hfin], trivial, ?_⟩
      simp only [stateRem]
      omega
    · refine ⟨.Pending (idx + 1) len c, by simp [RouteBuildState.did_commit, hfin],
        hlen, ?_⟩
      simp only [stateRem]
      omega

theorem find?_some_of_mem {l : List GitStop} {s : StopId}
    (h : s ∈ l.map (fun st => st.id)) :
    ∃ stop, l.find? (fun st => decide (st.id = s)) = some stop := by
  induction l with
  | nil => simp at h
  | cons x xs ih =>
    by_cases hx : x.id = s
    · exact ⟨x, by simp [List.find?_cons, hx]⟩
    · have h2 : s ∈ xs.map (fun st => st.id) := by
        rcases List.mem_map.mp h with ⟨st, hst, hid⟩
        rcases List.mem_cons.mp hst with rfl | hst2
        · exact absurd hid hx
        · exact List.mem_map.mpr ⟨st, hst2, hid⟩
      obtain ⟨stop, hstop⟩ := ih h2
      exact ⟨stop, by simp [List.find?_cons, hx, hstop]⟩

theorem fdNext_some_not_built {routes : List (RouteId × GitRoute)} {rid : RouteId}
    {st : RouteBuildState} {s : StopId} (h : fdNext routes rid st = some s) :
    isBuiltState st = false := by
  cases st with
  | Built c => simp [fdNext, fdNextIdx] at h
  | Untouched n => rfl
  | Pending idx len c => rfl

theorem mkeys_init_states (routes : List (RouteId × GitRoute)) :
    mkeys (init_states routes) = mkeys routes := by
  simp [init_states, mkeys, List.map_map, Function.comp]

theorem statesMeasure_init_states (routes : List (RouteId × GitRoute)) :
    statesMeasure (init_states routes) = totalStops routes := by
  rw [statesMeasure, init_states, totalStops, List.map_map]
  congr 1

/-! ### Lemmas about the driver's group processing -/

theorem collectGroupStates_ok {depRoutes : List RouteId} :
    ∀ states : States, (∀ e ∈ states, e.1 ∈ depRoutes → isBuiltState e.2 = false) →
      collectGroupStates depRoutes states =
        .ok (states.filter (fun e => decide (e.1 ∈ depRoutes))) := by
  intro states
  induction states with
  | nil => intro _; rfl
  | cons e rest ih =>
    obtain ⟨rid, st⟩ := e
    intro hall
    have hrec := ih (fun e he => hall e (List.mem_cons_of_mem _ he))
    by_cases hin : rid ∈ depRoutes
    · have hb := hall (rid, st) (List.mem_cons_self _ _) hin
      cases st with
      | Built c => simp [isBuiltState] at hb
      | Untouched n =>
        simp only [collectGroupStates, if_pos hin, hrec, List.filter_cons]
        simp [hin]
      | Pending idx len c =>
        simp only [collectGroupStates, if_pos hin, hrec, List.filter_cons]
        simp [hin]
    · simp only [collectGroupStates, if_neg hin, hrec, List.filter_cons]
      simp [hin]

theorem moveOtherHeads_ok {routes : List (RouteId × GitRoute)} {c : Nat} :
    ∀ (l : List RouteId) (repo : Repo), (∀ rid ∈ l, rid ∈ mkeys routes) →
      ∃ repo2, moveOtherHeads routes c l repo = .ok repo2 ∧ repo2.commits = repo.commits := by
  intro l
  induction l with
  | nil => exact fun repo _ => ⟨repo, rfl, rfl⟩
  | cons rid rest ih =>
    intro repo hall
    obtain ⟨route, hroute⟩ := mlookup_isSome_of_mem_keys (hall rid (List.mem_cons_self _ _))
    obtain ⟨repo2, heq, hc⟩ := ih (add_commit_to_head repo route.name c)
      (fun r hr => hall r (List.mem_cons_of_mem _ hr))
    refine ⟨repo2, ?_, hc⟩
    simp only [moveOtherHeads, hroute]
    exact heq

theorem updateStatesAfterMerge_spec {routes : List (RouteId × GitRoute)} {cks : List StopId}
    (c : Nat) :
    ∀ (gs states : States),
      (mkeys gs).Nodup →
      (mkeys states).Nodup →
      (∀ rid st, (rid, st) ∈ gs → mlookup states rid = some st) →
      (∀ e ∈ gs, ∃ route, mlookup routes e.1 = some route ∧ stateOkCore route cks e.2 ∧
        2 ≤ route.stops.length ∧ isBuiltState e.2 = false) →
      ∃ states2, updateStatesAfterMerge c gs states = .ok states2 ∧
        mkeys states2 = mkeys states ∧
        (∀ rid, rid ∉ mkeys gs → mlookup states2 rid = mlookup states rid) ∧
        (∀ rid st, (rid, st) ∈ gs → ∃ route st2, mlookup routes rid = some route ∧
          st.did_commit c = .ok st2 ∧ mlookup states2 rid = some st2 ∧
          stateLenOk route st2) ∧
        statesMeasure states2 ≤ statesMeasure states ∧
        (gs ≠ [] → statesMeasure states2 < statesMeasure states) := by
  intro gs
  induction gs with
  | nil =>
    intro states _ _ _ _
    exact ⟨states, rfl, rfl, fun _ _ => rfl, fun rid st h => absurd h (by simp),
      Nat.le_refl _, fun h => absurd rfl h⟩
  | cons e rest ih =>
    obtain ⟨rid, st⟩ := e
    intro states hgnd hsnd hcur hall
    rw [mkeys_cons, List.nodup_cons] at hgnd
    obtain ⟨route, hroute0, hcore, h2, hb⟩ := hall (rid, st) (List.mem_cons_self _ _)
    have hroute : mlookup routes rid = some route := hroute0
    obtain ⟨st2, hdc, hlen2, hrem⟩ := did_commit_ok hb hcore h2 c
    have hlook : mlookup states rid = some st := hcur rid st (List.mem_cons_self _ _)
    have hstep : updateStatesAfterMerge c ((rid, st) :: rest) states =
        updateStatesAfterMerge c rest (minsert states rid st2) := by
      simp only [updateStatesAfterMerge, hdc]
    have hkeys1 : mkeys (minsert states rid st2) = mkeys states :=
      mkeys_minsert_of_mem _ (mem_mkeys.mpr ⟨st, mem_of_mlookup hlook⟩)
    have hsnd1 : (mkeys (minsert states rid st2)).Nodup := by rw [hkeys1]; exact hsnd
    have hgnd1 : rid ∉ mkeys rest := hgnd.1
    have hcur1 : ∀ rid' st', (rid', st') ∈ rest →
        mlookup (minsert states rid st2) rid' = some st' := by
      intro rid' st' hmem
      have hne : rid ≠ rid' := fun he => hgnd1 (he ▸ mem_mkeys.mpr ⟨st', hmem⟩)
      rw [mlookup_minsert, if_neg hne]
      exact hcur rid' st' (List.mem_cons_of_mem _ hmem)
    obtain ⟨states2, heq, hkeys, hframe, hgot, hle, _⟩ :=
      ih (minsert states rid st2) hgnd.2 hsnd1 hcur1
        (fun e he => hall e (List.mem_cons_of_mem _ he))
    have hm1 : statesMeasure (minsert states rid st2) < statesMeasure states :=
      statesMeasure_minsert_lt hsnd hlook hrem
    refine ⟨states2, by rw [hstep]; exact heq, by rw [hkeys, hkeys1], ?_, ?_,
      by omega, fun _ => by omega⟩
    · intro rid' hnot
      have h1 : rid' ∉ mkeys rest := fun hh => hnot (by rw [mkeys_cons]; exact List.mem_cons_of_mem _ hh)
      have h2' : rid' ≠ rid := fun hh => hnot (by rw [mkeys_cons]; exact hh ▸ List.mem_cons_self _ _)
      rw [hframe rid' h1, mlookup_minsert, if_neg (fun hh => h2' hh.symm)]
    · intro rid' st' hmem
      rcases List.mem_cons.mp hmem with h1 | h1
      · simp only [Prod.mk.injEq] at h1
        obtain ⟨rfl, rfl⟩ := h1
        refine ⟨route, st2, hroute, hdc, ?_, hlen2⟩
        rw [hframe rid' hgnd1, mlookup_minsert, if_pos rfl]
      · exact hgot rid' st' h1

theorem rebuildGroup_spec {routes : List (RouteId × GitRoute)} {cks : List StopId}
    (hwf : WFRoutes routes) :
    ∀ (l : List RouteId) (states : States) (repo : Repo),
      l.Nodup →
      mkeys states = mkeys routes →
      (∀ rid ∈ l, rid ∈ mkeys states) →
      (∀ e ∈ states, ∃ route, mlookup routes e.1 = some route ∧ stateLenOk route e.2) →
      ∃ states2 repo2, rebuildGroup routes cks l states repo = .ok (states2, repo2) ∧
        mkeys states2 = mkeys states ∧
        (∀ rid, rid ∉ l → mlookup states2 rid = mlookup states rid) ∧
        (∀ e ∈ states2, ∃ route, mlookup routes e.1 = some route ∧ stateLenOk route e.2) ∧
        (∀ rid ∈ l, ∃ route st2, mlookup routes rid = some route ∧
          mlookup states2 rid = some st2 ∧ stateOkCore route cks st2) ∧
        statesMeasure states2 ≤ statesMeasure states := by
  intro l
  induction l with
  | nil =>
    intro states repo _ hkeys _ hinv
    exact ⟨states, repo, rfl, rfl, fun _ _ => rfl, hinv,
      fun rid h => absurd h (by simp), Nat.le_refl _⟩
  | cons rid rest ih =>
    intro states repo hnd hkeys hmem hinv
    rw [List.nodup_cons] at hnd
    have hsnd : (mkeys states).Nodup := by rw [hkeys]; exact hwf.1
    have hridkeys : rid ∈ mkeys routes := by
      rw [← hkeys]; exact hmem rid (List.mem_cons_self _ _)
    obtain ⟨route, hroute⟩ := mlookup_isSome_of_mem_keys hridkeys
    have hwf2 := hwf.2 (rid, route) (mem_of_mlookup hroute)
    have hid : route.id = rid := hwf2.1
    have h2 : 2 ≤ route.stops.length := hwf2.2
    obtain ⟨st, hst⟩ := mlookup_isSome_of_mem_keys (hmem rid (List.mem_cons_self _ _))
    obtain ⟨route', hroute0, hlen0⟩ := hinv (rid, st) (mem_of_mlookup hst)
    have hroute2 : mlookup routes rid = some route' := hroute0
    have hreq : route' = route := by
      rw [hroute] at hroute2
      exact (Option.some.injEq _ _ ▸ hroute2).symm
    have hlen : stateLenOk route st := by
      rw [← hreq]
      exact hlen0
    obtain ⟨repo2, st2, hba, hcore, hrem⟩ := @build_route_alone_ok route cks h2 st hlen repo
    have hstep : rebuildGroup routes cks (rid :: rest) states repo =
        rebuildGroup routes cks rest (minsert states rid st2) repo2 := by
      simp only [rebuildGroup, hroute, hid, hst, hba]
    have hkeys1 : mkeys (minsert states rid st2) = mkeys states :=
      mkeys_minsert_of_mem _ (hmem rid (List.mem_cons_self _ _))
    have hinv1 : ∀ e ∈ minsert states rid st2,
        ∃ route0, mlookup routes e.1 = some route0 ∧ stateLenOk route0 e.2 := by
      rintro ⟨rid', st'⟩ he
      rcases mem_minsert_cases hsnd he with ⟨h1, _⟩ | ⟨rfl, rfl⟩
      · exact hinv _ h1
      · exact ⟨route, hroute, stateOkCore_lenOk hcore⟩
    obtain ⟨states2, repo3, heq, hkeys2, hframe, hinv2, hgot, hle⟩ :=
      ih (minsert states rid st2) repo2 hnd.2 (by rw [hkeys1]; exact hkeys)
        (fun r hr => by rw [hkeys1]; exact hmem r (List.mem_cons_of_mem _ hr)) hinv1
    refine ⟨states2, repo3, by rw [hstep]; exact heq, by rw [hkeys2, hkeys1], ?_, hinv2,
      ?_, ?_⟩
    · intro rid' hnot
      have h1 : rid' ∉ rest := fun hh => hnot (List.mem_cons_of_mem _ hh)
      have hne : rid' ≠ rid := fun hh => hnot (hh ▸ List.mem_cons_self _ _)
      rw [hframe rid' h1, mlookup_minsert, if_neg (fun hh => hne hh.symm)]
    · intro r hr
      rcases List.mem_cons.mp hr with rfl | hr2
      · refine ⟨route, st2, hroute, ?_, hcore⟩
        rw [hframe r hnd.1, mlookup_minsert, if_pos rfl]
      · exact hgot r hr2
    · have hmle : statesMeasure (minsert states rid st2) ≤ statesMeasure states :=
        statesMeasure_minsert_le hsnd hst hrem
      omega

theorem fdNext_mem_cks {routes : List (RouteId × GitRoute)} {cks : List StopId}
    {rid : RouteId} {st : RouteBuildState} {s : StopId}
    (hpack : ∃ route, mlookup routes rid = some route ∧ stateOkCore route cks st)
    (h : fdNext routes rid st = some s) : s ∈ cks := by
  obtain ⟨route, hroute, hcore⟩ := hpack
  cases st with
  | Built c => simp [fdNext, fdNextIdx] at h
  | Untouched n =>
    obtain ⟨_, stop, hstop, hmem⟩ := hcore
    have hval : fdNext routes rid (.Untouched n) = some stop.id := by
      simp only [fdNext, fdNextIdx, hroute, hstop]
    rw [hval] at h
    simp only [Option.some.injEq] at h
    rw [← h]
    exact hmem
  | Pending idx len c =>
    obtain ⟨_, _, stop, hstop, hmem⟩ := hcore
    have hval : fdNext routes rid (.Pending idx len c) = some stop.id := by
      simp only [fdNext, fdNextIdx, hroute, hstop]
    rw [hval] at h
    simp only [Option.some.injEq] at h
    rw [← h]
    exact hmem

theorem processGroup_spec {routes : List (RouteId × GitRoute)} (hwf : WFRoutes routes) :
    ∀ (s : StopId) (rs : List RouteId) (states : States) (repo : Repo),
      StatesInv routes (mkeys (get_conflicts routes)) states →
      rs ≠ [] → rs.Nodup →
      (∀ rid ∈ rs, ∃ st, mlookup states rid = some st ∧ isBuiltState st = false ∧
        fdNext routes rid st = some s) →
      ∃ states2 repo2 b,
        processGroup routes (get_conflicts routes) s rs states repo =
          .ok (states2, repo2, b) ∧
        StatesInv routes (mkeys (get_conflicts routes)) states2 ∧
        (∀ rid, rid ∉ rs → mlookup states2 rid = mlookup states rid) ∧
        statesMeasure states2 ≤ statesMeasure states ∧
        (b = true → statesMeasure states2 < statesMeasure states) ∧
        (b = false → states2 = states ∧ repo2 = repo) := by
  intro s rs states repo hinv hne hnodup hgroup
  obtain ⟨rid0w, hrid0w⟩ : ∃ r, r ∈ rs := by
    cases rs with
    | nil => exact absurd rfl hne
    | cons a l => exact ⟨a, List.mem_cons_self _ _⟩
  obtain ⟨st0, hst0, hb0, hfd0⟩ := hgroup rid0w hrid0w
  have hscks : s ∈ mkeys (get_conflicts routes) :=
    fdNext_mem_cks (hinv.2 (rid0w, st0) (mem_of_mlookup hst0)) hfd0
  obtain ⟨target, htarget⟩ := mlookup_isSome_of_mem_keys hscks
  by_cases hready : target.length ≠ rs.length
  · refine ⟨states, repo, false, ?_, hinv, fun _ _ => rfl, Nat.le_refl _, by simp,
      fun _ => ⟨rfl, rfl⟩⟩
    simp only [processGroup, htarget]
    rw [if_pos hready]
  · push_neg at hready
    have htlen := get_conflicts_lookup_length htarget
    obtain ⟨rid0, target', rfl⟩ : ∃ a l, target = a :: l := by
      cases target with
      | nil => exact absurd htlen.2 (by simp)
      | cons a l => exact ⟨a, l, rfl⟩
    obtain ⟨kr, hkrmem, hkrid, hkrs⟩ :=
      get_conflicts_values htarget rid0 (List.mem_cons_self _ _)
    have hlook0 : mlookup routes rid0 = some kr.2 := by
      have hk1 : kr.1 = rid0 := by rw [← hkrid]; exact (hwf.2 kr hkrmem).1.symm
      refine mlookup_of_mem_nodup hwf.1 ?_
      rw [← hk1]
      simpa using hkrmem
    obtain ⟨stop0, hfind⟩ := find?_some_of_mem hkrs
    obtain ⟨host, rs', rfl⟩ : ∃ a l, rs = a :: l := by
      cases rs with
      | nil => exact absurd rfl hne
      | cons a l => exact ⟨a, l, rfl⟩
    obtain ⟨sth, hsth, hbh, hfdh⟩ := hgroup host (List.mem_cons_self _ _)
    have hhostkeys : host ∈ mkeys routes := by
      rw [← hinv.1]
      exact mem_mkeys.mpr ⟨sth, mem_of_mlookup hsth⟩
    obtain ⟨hostRoute, hhost⟩ := mlookup_isSome_of_mem_keys hhostkeys
    have hsnd : (mkeys states).Nodup := by rw [hinv.1]; exact hwf.1
    have hcollectCond : ∀ e ∈ states, e.1 ∈ (host :: rs') → isBuiltState e.2 = false := by
      rintro ⟨rid', st'⟩ he hin
      obtain ⟨st'', hst'', hb'', _⟩ := hgroup rid' hin
      have hl : mlookup states rid' = some st' := mlookup_of_mem_nodup hsnd he
      rw [hl] at hst''
      simp only [Option.some.injEq] at hst''
      rw [← hst''] at hb''
      exact hb''
    have hcol := collectGroupStates_ok states hcollectCond
    have hG1 : ∀ e ∈ states.filter (fun e => decide (e.1 ∈ (host :: rs'))),
        e ∈ states ∧ e.1 ∈ (host :: rs') := by
      intro e he
      have h := List.mem_filter.mp he
      exact ⟨h.1, by simpa using h.2⟩
    have hG2 : (mkeys (states.filter (fun e => decide (e.1 ∈ (host :: rs'))))).Nodup :=
      hsnd.sublist (List.Sublist.map _ (List.filter_sublist _))
    have hG3 : ∀ rid st,
        (rid, st) ∈ states.filter (fun e => decide (e.1 ∈ (host :: rs'))) →
        mlookup states rid = some st :=
      fun rid st h => mlookup_of_mem_nodup hsnd (hG1 _ h).1
    have hG4 : ∀ e ∈ states.filter (fun e => decide (e.1 ∈ (host :: rs'))),
        ∃ route, mlookup routes e.1 = some route ∧
          stateOkCore route (mkeys (get_conflicts routes)) e.2 ∧
          2 ≤ route.stops.length ∧ isBuiltState e.2 = false := by
      rintro ⟨rid', st'⟩ he
      obtain ⟨hes, hin⟩ := hG1 _ he
      obtain ⟨route, hroute, hcore⟩ := hinv.2 _ hes
      have hroute' : mlookup routes rid' = some route := hroute
      have h2 := (hwf.2 (rid', route) (mem_of_mlookup hroute')).2
      exact ⟨route, hroute', hcore, h2, hcollectCond (rid', st') hes hin⟩
    have hG5 : (host, sth) ∈ states.filter (fun e => decide (e.1 ∈ (host :: rs'))) :=
      List.mem_filter.mpr ⟨mem_of_mlookup hsth, by simp⟩
    obtain ⟨states2, hupd, hukeys, huframe, hugot, hule, hult⟩ :=
      @updateStatesAfterMerge_spec routes (mkeys (get_conflicts routes))
        repo.commits.length
        (states.filter (fun e => decide (e.1 ∈ (host :: rs')))) states hG2 hsnd hG3 hG4
    obtain ⟨repo4, hmove, hmovec⟩ :=
      @moveOtherHeads_ok routes repo.commits.length rs'
        ⟨repo.commits ++ [⟨stop0.name ++ " from merge",
          mergeParents (states.filter (fun e => decide (e.1 ∈ (host :: rs')))),
          hostRoute.name⟩],
         minsert repo.branches hostRoute.name repo.commits.length⟩
        (fun rid hr => by
          rw [← hinv.1]
          obtain ⟨st', hst', _, _⟩ := hgroup rid (List.mem_cons_of_mem _ hr)
          exact mem_mkeys.mpr ⟨st', mem_of_mlookup hst'⟩)
    have hsnd2 : (mkeys states2).Nodup := by rw [hukeys]; exact hsnd
    have hinv2len : ∀ e ∈ states2, ∃ route, mlookup routes e.1 = some route ∧
        stateLenOk route e.2 := by
      rintro ⟨rid', st'⟩ he
      have hl2 : mlookup states2 rid' = some st' := mlookup_of_mem_nodup hsnd2 he
      by_cases hin : rid' ∈ mkeys (states.filter (fun e => decide (e.1 ∈ (host :: rs'))))
      · obtain ⟨stg, hstg⟩ := mem_mkeys.mp hin
        obtain ⟨route, st2, hroute, hdc, hlook2, hlen2⟩ := hugot rid' stg hstg
        rw [hl2] at hlook2
        simp only [Option.some.injEq] at hlook2
        rw [hlook2]
        exact ⟨route, hroute, hlen2⟩
      · rw [huframe rid' hin] at hl2
        obtain ⟨route, hroute, hcore⟩ := hinv.2 (rid', st') (mem_of_mlookup hl2)
        exact ⟨route, hroute, stateOkCore_lenOk hcore⟩
    obtain ⟨states3, repo5, hreb, hrkeys, hrframe, hrinv, hrgot, hrle⟩ :=
      @rebuildGroup_spec routes (mkeys (get_conflicts routes)) hwf (host :: rs') states2
        repo4 hnodup (by rw [hukeys]; exact hinv.1)
        (fun rid hr => by
          rw [hukeys, ← hinv.1] at *
          obtain ⟨st', hst', _, _⟩ := hgroup rid hr
          rw [hukeys]
          exact mem_mkeys.mpr ⟨st', mem_of_mlookup hst'⟩)
        hinv2len
    refine ⟨states3, repo5, true, ?_, ?_, ?_, ?_, fun _ => ?_, by simp⟩
    · simp only [processGroup, htarget]
      rw [if_neg (fun hh => hh hready)]
      simp only [List.head?_cons, hlook0, hfind, hhost, hcol, mkCommit,
        List.drop_succ_cons, List.drop_zero, hmove, hupd, hreb]
    · constructor
      · rw [hrkeys, hukeys]
        exact hinv.1
      · rintro ⟨rid', st'⟩ he
        have hsnd3 : (mkeys states3).Nodup := by rw [hrkeys]; exact hsnd2
        have hl3 : mlookup states3 rid' = some st' := mlookup_of_mem_nodup hsnd3 he
        by_cases hin : rid' ∈ (host :: rs')
        · obtain ⟨route, st2, hroute, hlook3, hcore3⟩ := hrgot rid' hin
          rw [hl3] at hlook3
          simp only [Option.some.injEq] at hlook3
          rw [hlook3]
          exact ⟨route, hroute, hcore3⟩
        · rw [hrframe rid' hin] at hl3
          have hnotg : rid' ∉ mkeys (states.filter (fun e => decide (e.1 ∈ (host :: rs')))) := by
            intro hh
            obtain ⟨stg, hstg⟩ := mem_mkeys.mp hh
            exact hin (hG1 _ hstg).2
          rw [huframe rid' hnotg] at hl3
          exact hinv.2 (rid', st') (mem_of_mlookup hl3)
    · intro rid hnot
      have hnotg : rid ∉ mkeys (states.filter (fun e => decide (e.1 ∈ (host :: rs')))) := by
        intro hh
        obtain ⟨stg, hstg⟩ := mem_mkeys.mp hh
        exact hnot (hG1 _ hstg).2
      rw [hrframe rid hnot, huframe rid hnotg]
    · omega
    · have hgne : states.filter (fun e => decide (e.1 ∈ (host :: rs'))) ≠ [] := by
        intro hh
        rw [hh] at hG5
        simp at hG5
      have := hult hgne
      omega

theorem processPass_spec {routes : List (RouteId × GitRoute)} (hwf : WFRoutes routes) :
    ∀ (groups : List (StopId × List RouteId)) (states : States) (repo : Repo) (b : Bool),
      StatesInv routes (mkeys (get_conflicts routes)) states →
      (∀ g ∈ groups, g.2 ≠ [] ∧ g.2.Nodup ∧ ∀ rid ∈ g.2, ∃ st,
        mlookup states rid = some st ∧ isBuiltState st = false ∧
        fdNext routes rid st = some g.1) →
      List.Pairwise (fun g1 g2 => ∀ rid, rid ∈ g1.2 → rid ∉ g2.2) groups →
      ∃ states2 repo2 b2,
        processPass routes (get_conflicts routes) groups states repo b =
          .ok (states2, repo2, b2) ∧
        StatesInv routes (mkeys (get_conflicts routes)) states2 ∧
        statesMeasure states2 ≤ statesMeasure states ∧
        (b = false → b2 = true → statesMeasure states2 < statesMeasure states) := by
  intro groups
  induction groups with
  | nil =>
    intro states repo b hinv _ _
    refine ⟨states, repo, b, rfl, hinv, Nat.le_refl _, fun hb hb2 => ?_⟩
    subst hb
    exact absurd hb2 (by simp)
  | cons g rest ih =>
    obtain ⟨s, rs⟩ := g
    intro states repo b hinv hgroups hpw
    obtain ⟨hne, hnd, hmem⟩ := hgroups (s, rs) (List.mem_cons_self _ _)
    obtain ⟨states1, repo1, b1, heq1, hinv1, hframe1, hle1, hlt1, hfalse1⟩ :=
      processGroup_spec hwf s rs states repo hinv hne hnd hmem
    rw [List.pairwise_cons] at hpw
    have hrest : ∀ g ∈ rest, g.2 ≠ [] ∧ g.2.Nodup ∧ ∀ rid ∈ g.2, ∃ st,
        mlookup states1 rid = some st ∧ isBuiltState st = false ∧
        fdNext routes rid st = some g.1 := by
      intro g hg
      obtain ⟨hne2, hnd2, hmem2⟩ := hgroups g (List.mem_cons_of_mem _ hg)
      refine ⟨hne2, hnd2, fun rid hr => ?_⟩
      obtain ⟨st, hst, hb', hfd⟩ := hmem2 rid hr
      have hnotrs : rid ∉ rs := fun hrs => hpw.1 g hg rid hrs hr
      exact ⟨st, by rw [hframe1 rid hnotrs]; exact hst, hb', hfd⟩
    obtain ⟨states2, repo2, b2, heq2, hinv2, hle2, hlt2⟩ :=
      ih states1 repo1 (b || b1) hinv1 hrest hpw.2
    refine ⟨states2, repo2, b2, ?_, hinv2, by omega, ?_⟩
    · simp only [processPass, heq1]
      exact heq2
    · intro hb hb2
      subst hb
      cases hb1 : b1 with
      | true =>
        have h1 := hlt1 hb1
        omega
      | false =>
        obtain ⟨hseq, _⟩ := hfalse1 hb1
        have hstrict := hlt2 (by simp [hb1]) hb2
        rw [hseq] at hstrict
        omega

theorem buildLoop_spec {routes : List (RouteId × GitRoute)} (hwf : WFRoutes routes) :
    ∀ (fuel : Nat) (states : States) (repo : Repo),
      StatesInv routes (mkeys (get_conflicts routes)) states →
      statesMeasure states < fuel →
      (∃ states2 repo2, buildLoop routes (get_conflicts routes) fuel states repo =
        .ok (states2, repo2) ∧ allBuilt states2 = true) ∨
      buildLoop routes (get_conflicts routes) fuel states repo = .error .deadlock := by
  intro fuel
  induction fuel with
  | zero => intro states repo _ hm; omega
  | succ fuel ih =>
    intro states repo hinv hm
    obtain ⟨deps, hdeps⟩ := find_dependencies_ok hinv.2
    obtain ⟨hdnodup, hdvals, _⟩ := find_dependencies_spec hdeps
    by_cases hnil : deps.length = 0
    · left
      refine ⟨states, repo, ?_, find_dependencies_nil_allBuilt hdeps hnil⟩
      simp only [buildLoop, hdeps]
      rw [if_pos hnil]
    · have hsnd : (mkeys states).Nodup := by rw [hinv.1]; exact hwf.1
      have hgroups : ∀ g ∈ deps, g.2 ≠ [] ∧ g.2.Nodup ∧ ∀ rid ∈ g.2, ∃ st,
          mlookup states rid = some st ∧ isBuiltState st = false ∧
          fdNext routes rid st = some g.1 := by
        intro g hg
        obtain ⟨hval, hne⟩ := hdvals g hg
        refine ⟨hne, ?_, ?_⟩
        · rw [hval, waitingKeys]
          exact hsnd.sublist (List.Sublist.map _ (List.filter_sublist _))
        · intro rid hr
          rw [hval, waitingKeys] at hr
          obtain ⟨⟨rid2, st2⟩, hef, heq⟩ := List.mem_map.mp hr
          have hfil := List.mem_filter.mp hef
          have hfd : fdNext routes rid2 st2 = some g.1 := by simpa using hfil.2
          have hrid2 : rid2 = rid := heq
          subst hrid2
          exact ⟨st2, mlookup_of_mem_nodup hsnd hfil.1, fdNext_some_not_built hfd, hfd⟩
      have hpw : List.Pairwise (fun g1 g2 => ∀ rid, rid ∈ g1.2 → rid ∉ g2.2) deps := by
        have hkeys : List.Pairwise (fun g1 g2 => g1.1 ≠ g2.1) deps :=
          List.pairwise_map.mp hdnodup
        refine hkeys.imp_of_mem ?_
        intro g1 g2 hg1 hg2 hne12 rid hr1 hr2
        obtain ⟨hval1, _⟩ := hdvals g1 hg1
        obtain ⟨hval2, _⟩ := hdvals g2 hg2
        rw [hval1, waitingKeys] at hr1
        rw [hval2, waitingKeys] at hr2
        obtain ⟨⟨r1, s1⟩, hef1, heq1⟩ := List.mem_map.mp hr1
        obtain ⟨⟨r2, s2⟩, hef2, heq2⟩ := List.mem_map.mp hr2
        have hf1 := List.mem_filter.mp hef1
        have hf2 := List.mem_filter.mp hef2
        have hr1' : rid = r1 := heq1.symm
        have hr2' : rid = r2 := heq2.symm
        subst hr1'
        subst hr2'
        have hl1 : mlookup states rid = some s1 := mlookup_of_mem_nodup hsnd hf1.1
        have hl2 : mlookup states rid = some s2 := mlookup_of_mem_nodup hsnd hf2.1
        have hseq : s1 = s2 := by
          rw [hl1] at hl2
          exact Option.some.injEq _ _ ▸ hl2
        have hfd1 : fdNext routes rid s1 = some g1.1 := by simpa using hf1.2
        have hfd2 : fdNext routes rid s2 = some g2.1 := by simpa using hf2.2
        rw [hseq] at hfd1
        rw [hfd1] at hfd2
        simp only [Option.some.injEq] at hfd2
        exact hne12 hfd2
      obtain ⟨states2, repo2, b2, hpass, hinv2, hle2, hlt2⟩ :=
        processPass_spec hwf deps states repo false hinv hgroups hpw
      cases hb2 : b2 with
      | true =>
        rw [hb2] at hpass
        have hstrict := hlt2 rfl hb2
        rcases ih states2 repo2 hinv2 (by omega) with ⟨s3, r3, heq3, hall⟩ | heq3
        · left
          refine ⟨s3, r3, ?_, hall⟩
          simp only [buildLoop, hdeps]
          rw [if_neg hnil]
          simp only [hpass]
          exact heq3
        · right
          simp only [buildLoop, hdeps]
          rw [if_neg hnil]
          simp only [hpass]
          exact heq3
      | false =>
        right
        rw [hb2] at hpass
        simp only [buildLoop, hdeps]
        rw [if_neg hnil]
        simp only [hpass]
        rfl

theorem bootstrapRoutes_spec {routes : List (RouteId × GitRoute)} (hwf : WFRoutes routes) :
    ∀ (rlist : List (RouteId × GitRoute)) (states : States) (repo : Repo),
      (∀ kr ∈ rlist, kr ∈ routes) →
      mkeys states = mkeys routes →
      (∀ e ∈ states, ∃ route, mlookup routes e.1 = some route ∧
        (stateOkCore route (mkeys (get_conflicts routes)) e.2 ∨
          (e.1 ∈ mkeys rlist ∧ stateLenOk route e.2))) →
      ∃ states2 repo2,
        bootstrapRoutes (mkeys (get_conflicts routes)) rlist states repo =
          .ok (states2, repo2) ∧
        mkeys states2 = mkeys routes ∧
        statesMeasure states2 ≤ statesMeasure states ∧
        (∀ e ∈ states2, ∃ route, mlookup routes e.1 = some route ∧
          stateOkCore route (mkeys (get_conflicts routes)) e.2) := by
  intro rlist
  induction rlist with
  | nil =>
    intro states repo _ hkeys hentries
    refine ⟨states, repo, rfl, hkeys, Nat.le_refl _, ?_⟩
    intro e he
    obtain ⟨route, hroute, hc⟩ := hentries e he
    rcases hc with hc | ⟨hmem, _⟩
    · exact ⟨route, hroute, hc⟩
    · simp [mkeys] at hmem
  | cons kr rest ih =>
    obtain ⟨rid, route⟩ := kr
    intro states repo hsub hkeys hentries
    have hsnd : (mkeys states).Nodup := by rw [hkeys]; exact hwf.1
    have hmemr : (rid, route) ∈ routes := hsub (rid, route) (List.mem_cons_self _ _)
    have hroute : mlookup routes rid = some route := mlookup_of_mem_nodup hwf.1 hmemr
    have h2 : 2 ≤ route.stops.length := (hwf.2 _ hmemr).2
    have hridk : rid ∈ mkeys states := by
      rw [hkeys]
      exact mem_mkeys.mpr ⟨route, hmemr⟩
    obtain ⟨st, hst⟩ := mlookup_isSome_of_mem_keys hridk
    obtain ⟨route', hroute'0, hc⟩ := hentries (rid, st) (mem_of_mlookup hst)
    have hroute'2 : mlookup routes rid = some route' := hroute'0
    have hreq : route' = route := by
      rw [hroute] at hroute'2
      exact (Option.some.injEq _ _ ▸ hroute'2).symm
    have hlen : stateLenOk route st := by
      rcases hc with hc | ⟨_, hlen0⟩
      · rw [← hreq]
        exact stateOkCore_lenOk hc
      · rw [← hreq]
        exact hlen0
    obtain ⟨repo2, st2, hba, hcore, hrem⟩ :=
      @build_route_alone_ok route (mkeys (get_conflicts routes)) h2 st hlen repo
    have hkeys1 : mkeys (minsert states rid st2) = mkeys states :=
      mkeys_minsert_of_mem _ hridk
    have hentries1 : ∀ e ∈ minsert states rid st2, ∃ route0,
        mlookup routes e.1 = some route0 ∧
        (stateOkCore route0 (mkeys (get_conflicts routes)) e.2 ∨
          (e.1 ∈ mkeys rest ∧ stateLenOk route0 e.2)) := by
      rintro ⟨rid', st'⟩ he
      rcases mem_minsert_cases hsnd he with ⟨h1, hne⟩ | ⟨rfl, rfl⟩
      · obtain ⟨route0, hroute0, hc0⟩ := hentries _ h1
        refine ⟨route0, hroute0, ?_⟩
        rcases hc0 with hc0 | ⟨hmem0, hlen0⟩
        · exact Or.inl hc0
        · refine Or.inr ⟨?_, hlen0⟩
          rcases (by simpa [mkeys_cons] using hmem0 : rid' = rid ∨ rid' ∈ mkeys rest)
            with h | h
          · exact absurd h hne
          · exact h
      · exact ⟨route, hroute, Or.inl hcore⟩
    obtain ⟨states2, repo3, heq, hkeys2, hle2, hfin⟩ :=
      ih (minsert states rid st2) repo2
        (fun x hx => hsub x (List.mem_cons_of_mem _ hx))
        (by rw [hkeys1]; exact hkeys) hentries1
    refine ⟨states2, repo3, ?_, hkeys2, ?_, hfin⟩
    · simp only [bootstrapRoutes, hst, hba]
      exact heq
    · have hmle := statesMeasure_minsert_le hsnd hst hrem
      omega

theorem run_dichotomy {routes : List (RouteId × GitRoute)} (hwf : WFRoutes routes) :
    (∃ p, runBuild routes = .ok p ∧ allBuilt p.1 = true) ∨
    runBuild routes = .error .deadlock := by
  have hinit_entries : ∀ e ∈ init_states routes, ∃ route,
      mlookup routes e.1 = some route ∧
      (stateOkCore route (mkeys (get_conflicts routes)) e.2 ∨
        (e.1 ∈ mkeys routes ∧ stateLenOk route e.2)) := by
    rintro ⟨rid, st⟩ he
    rw [init_states] at he
    obtain ⟨kr, hkr, heq⟩ := List.mem_map.mp he
    simp only [Prod.mk.injEq] at heq
    obtain ⟨h1, h2⟩ := heq
    subst h1
    have hroute : mlookup routes kr.1 = some kr.2 :=
      mlookup_of_mem_nodup hwf.1 (by simpa using hkr)
    refine ⟨kr.2, hroute, Or.inr ⟨mem_mkeys.mpr ⟨kr.2, by simpa using hkr⟩, ?_⟩⟩
    rw [← h2]
    exact rfl
  obtain ⟨statesB, repoB, hboot, hkeysB, hleB, hinvB⟩ :=
    bootstrapRoutes_spec hwf routes (init_states routes) ⟨[], []⟩ (fun kr h => h)
      (mkeys_init_states routes) hinit_entries
  have hinvB2 : StatesInv routes (mkeys (get_conflicts routes)) statesB := ⟨hkeysB, hinvB⟩
  have hmB : statesMeasure statesB < totalStops routes + 1 := by
    have := statesMeasure_init_states routes
    omega
  rcases buildLoop_spec hwf (totalStops routes + 1) statesB repoB hinvB2 hmB with
    ⟨s2, r2, heq2, hall⟩ | heq2
  · left
    refine ⟨(s2, r2), ?_, hall⟩
    rw [runBuild, build_repository]
    simp only [hboot]
    exact heq2
  · right
    rw [runBuild, build_repository]
    simp only [hboot]
    exact heq2

/-- C4 (amended): the merge commit's parent list collects each participant's
current head commit id via a plain filter-map — every participant whose state
carries a head contributes that head, `Untouched` participants contribute
nothing — and identical parent ids are NOT deduplicated: the list handed to
the commit store can contain the same commit id twice, as the concrete group
with two `Pending` states both headed at commit 5 shows. -/
theorem merge_parents_amended :
    (∀ (gs : States) (rid : RouteId) (st : RouteBuildState) (c : Nat),
      (rid, st) ∈ gs → st.commit? = some c → c ∈ mergeParents gs) ∧
    (∀ gs : States, (∀ e ∈ gs, e.2.commit? = none) → mergeParents gs = []) ∧
    mergeParents [("a", .Pending 0 3 5), ("b", .Pending 1 3 5)] = [5, 5] := by
  refine ⟨?_, ?_, rfl⟩
  · intro gs rid st c hmem hc
    exact List.mem_filterMap.mpr ⟨(rid, st), hmem, hc⟩
  · intro gs h
    exact List.filterMap_eq_nil_iff.mpr h

theorem merge_parents_amended_witness :
    ("a", RouteBuildState.Pending 0 3 5) ∈
      ([("a", RouteBuildState.Pending 0 3 5), ("b", RouteBuildState.Pending 1 3 5)] : States) ∧
    (RouteBuildState.Pending 0 3 5).commit? = some 5 ∧
    5 ∈ mergeParents [("a", .Pending 0 3 5), ("b", .Pending 1 3 5)] :=
  ⟨by decide, rfl,
    merge_parents_amended.1 [("a", .Pending 0 3 5), ("b", .Pending 1 3 5)] "a"
      (.Pending 0 3 5) 5 (by decide) rfl⟩

/-- C6 (amended): for every well-formed input — route keys distinct, each
value's id equal to its key, and every route with at least 2 stops — the
driver terminates: the fuelled loop (fuel `totalStops + 1`, which the measure
argument proves sufficient, each productive pass strictly decreasing the sum
of remaining stops) either exits with every route's state `Built` or raises
the deadlock panic.  (The claim's unrestricted "every input" fails:
`single_stop_route_breaks_dichotomy` exhibits a third outcome, the
out-of-range unwrap in `find_dependencies`, on a 1-stop route.) -/
theorem build_terminates_dichotomy :
    ∀ routes : List (RouteId × GitRoute), WFRoutes routes →
      (∃ p, runBuild routes = .ok p ∧ allBuilt p.1 = true) ∨
      runBuild routes = .error .deadlock :=
  fun _ hwf => run_dichotomy hwf

theorem build_terminates_dichotomy_witness :
    WFRoutes disjointPQ ∧
    ((∃ p, runBuild disjointPQ = .ok p ∧ allBuilt p.1 = true) ∨
      runBuild disjointPQ = .error .deadlock) :=
  ⟨⟨by decide, by decide⟩, build_terminates_dichotomy disjointPQ ⟨by decide, by decide⟩⟩

/-- C10 (amended): for every well-formed input in which each route has at
least 2 stops, every frontier computation the driver performs succeeds — the
run never ends in `find_dependencies`' out-of-range stop lookup, its route
lookup, or the driver's conflicts-map lookup.  (With only ≥1 stop assumed, as
the claim states, `frontier_unwrap_fails_single_stop` shows the stop-lookup
unwrap firing.) -/
theorem frontier_lookups_safe :
    ∀ routes : List (RouteId × GitRoute), WFRoutes routes →
      runBuild routes ≠ .error .fdStopLookup ∧
      runBuild routes ≠ .error .fdRouteLookup ∧
      runBuild routes ≠ .error .conflictsLookup := by
  intro routes hwf
  rcases run_dichotomy hwf with ⟨p, hok, _⟩ | herr
  · rw [hok]
    exact ⟨by simp, by simp, by simp⟩
  · rw [herr]
    refine ⟨fun h => ?_, fun h => ?_, fun h => ?_⟩ <;>
      exact absurd (Except.error.inj h) (by decide)

theorem frontier_lookups_safe_witness :
    WFRoutes crossInput ∧
    (runBuild crossInput ≠ .error .fdStopLookup ∧
     runBuild crossInput ≠ .error .fdRouteLookup ∧
     runBuild crossInput ≠ .error .conflictsLookup) :=
  ⟨⟨by decide, by decide⟩, frontier_lookups_safe crossInput ⟨by decide, by decide⟩⟩
